import Mathlib

set_option maxHeartbeats 1000000
set_option maxRecDepth 100000

/-!
Shallow embedding of the query-preprocessing core of the ImageDatabase
repository.

The embedded code is:

* `src/app/gui/application.py`, class `_SearchThread`: the search worker
  (`run`, `_preprocess`, `_MAXIMUM_DEPTH`, `failed`, `error`);
* `src/app/gui/dialogs/_tabs.py`: `_TagsTab._check_cell_format` and
  `CompoundTagsTab._check_cell_format` (compound-tag definition validation);
* `src/app/gui/dialogs/edit_image_dialog.py`: `EditImageDialog._get_error`,
  `_ensure_no_compound_tags`, `_get_tags`.

Strings are embedded as `List Char`.  The two regular-expression mechanisms of
`_preprocess` are embedded operationally, for the ASCII character classes the
source relies on:

* the metatag-literal search pattern
  (word chars, optional spaces, a colon, optional spaces, a `"` or `/`
  delimited value with doubled-backslash escaping) together with
  `re.sub(re.escape(match), sentinel, query, count=1)`;
* the compound-tag substitution pattern (a label as a whole word, i.e.
  bounded by a non-word character or the string start/end) with replacement
  by the parenthesised definition; the group-1/group-2 characters consumed by
  the match are re-inserted unchanged.

Collaborators that are not part of the four source files (the Lark-based
query compiler `queries.query_to_sympy`, the DAOs, `model.Tag.from_string`,
`model.TagsDao.get_tag_class`) are abstracted as function parameters.
-/

namespace ImageDatabase

abbrev Str := List Char

/-- Python `\w` for the ASCII range: letters, digits and underscore. -/
def isWordChar (c : Char) : Bool := c.isAlphanum || c == '_'

/-- Python `\s` for the ASCII range. -/
def isSpaceChar (c : Char) : Bool :=
  c == ' ' || c == '\t' || c == '\n' || c == '\r' || c == '\x0b' || c == '\x0c'

/-- The metatag value delimiters of the `_preprocess` search pattern. -/
def isDelimChar (c : Char) : Bool := c == '"' || c == '/'

/-- Length of the leading backslash run. -/
def bsRun (s : Str) : Nat := (s.takeWhile (fun c => c == '\\')).length

/-- Position `m` of `r` closes the metatag value opened by `delim`:
`r` carries `delim` at `m`, the maximal backslash run ending just before `m`
has even length (doubled-backslash escaping), and — unless that run reaches
the start of the value — the characters scanned by the lazy `.*?` part
contain no newline.  This is the closing condition of the source pattern
`(["/])((\\\\)*|(.*?[^\\](\\\\)*))\2`. -/
def validCloseB (delim : Char) (r : Str) (m : Nat) : Bool :=
  let pre := r.take m
  let run := bsRun pre.reverse
  (r.get? m == some delim) && run % 2 == 0 &&
    (run == m || (pre.take (m - run - 1)).all (fun c => c != '\n'))

/-- Leftmost closing position of a metatag value (the backtracking search of
the source pattern finds the smallest valid closing position). -/
def valueClose (delim : Char) (r : Str) : Option Nat :=
  (List.range r.length).find? (validCloseB delim r)

/-- One attempt of the metatag search pattern
`(\w+\s*:\s*(["/])((\\\\)*|(.*?[^\\](\\\\)*))\2)` anchored at the start of
`s`; returns the matched text (group 1). -/
def matchAt (s : Str) : Option Str :=
  if (s.takeWhile isWordChar).isEmpty then none
  else
    match (s.dropWhile isWordChar).dropWhile isSpaceChar with
    | ':' :: r3 =>
      match r3.dropWhile isSpaceChar with
      | d :: r5 =>
        if isDelimChar d then
          match valueClose d r5 with
          | some m =>
            some (s.takeWhile isWordChar ++
              (s.dropWhile isWordChar).takeWhile isSpaceChar ++
              ':' :: (r3.takeWhile isSpaceChar ++ d :: r5.take (m + 1)))
          | none => none
        else none
      | [] => none
    | _ => none

/-- `re.search` of the metatag pattern: the match at the leftmost starting
position.  Returns `(text before the match, matched text, text after)`. -/
def findMatch : Str → Option (Str × Str × Str)
  | [] => none
  | c :: r =>
    match matchAt (c :: r) with
    | some t => some ([], t, (c :: r).drop t.length)
    | none => (findMatch r).map (fun x => (c :: x.1, x.2.1, x.2.2))

/-- Decimal digits, fuelled; the fuel only needs to exceed the number of
digits. -/
def natDigitsGo : Nat → Nat → Str
  | 0, _ => []
  | fuel + 1, n =>
    if n < 10 then [Char.ofNat (48 + n)]
    else natDigitsGo fuel (n / 10) ++ [Char.ofNat (48 + n % 10)]

/-- Decimal digits of `n`, most significant first (Python `str(n)`). -/
def natDigits (n : Nat) : Str := natDigitsGo (n + 1) n

/-- The placeholder written by `_preprocess` for match index `i`:
the Python f-string of two percent signs, the decimal index, two percent
signs. -/
def sentinel (i : Nat) : Str := '%' :: '%' :: (natDigits i ++ ['%', '%'])

/-- `str`-level replacement of the first occurrence of `pat` (used both for
`re.sub(re.escape(pat), rep, s, count=1)`, whose pattern is literal, and for
`str.replace(pat, rep, 1)`).  `pat` is never empty at the call sites. -/
def replaceFirst (pat rep : Str) : Str → Str
  | [] => []
  | c :: r =>
    if !pat.isEmpty && pat.isPrefixOf (c :: r) then rep ++ (c :: r).drop pat.length
    else c :: replaceFirst pat rep r

/-- Number of colons; every metatag match contains one, every placeholder
none, which bounds the protection loop (claim C9). -/
def countColon (s : Str) : Nat := s.count ':'

/-- State of the literal-protection loop of `_preprocess` (source lines
639-647): the working query, the placeholder table `meta_tag_values`
in insertion order, and — as an observation for the specification — the list
of positions at which the successive matches were found. -/
structure ProtectState where
  query : Str
  table : List (Nat × Str)
  positions : List Nat
deriving DecidableEq, Repr

/-- The `while re.search(...)` protection loop.  The fuel is an upper bound
on the number of iterations; `protect` supplies `countColon q + 1`, which is
sufficient because every iteration removes at least one colon (claim C9). -/
def protectLoop (fuel : Nat) (s : Str) (idx : Nat) (tab : List (Nat × Str))
    (pos : List Nat) : ProtectState :=
  match fuel with
  | 0 => ⟨s, tab, pos⟩
  | fuel + 1 =>
    match findMatch s with
    | none => ⟨s, tab, pos⟩
    | some (p, t, _) =>
      protectLoop fuel (replaceFirst t (sentinel (idx + 1)) s) (idx + 1)
        (tab ++ [(idx + 1, t)]) (pos ++ [p.length])

/-- Literal protection (source lines 639-647). -/
def protect (q : Str) : ProtectState := protectLoop (countColon q + 1) q 0 [] []

/-- Placeholder restoration (source lines 664-666): each index is replaced
back once, in ascending (insertion) order. -/
def restoreAll (tab : List (Nat × Str)) (s : Str) : Str :=
  tab.foldl (fun q iv => replaceFirst (sentinel iv.1) iv.2 q) s

/-- Group 2 `(\W|$)` of the compound-tag pattern: end of string or a
non-word character. -/
def wordBoundaryB : Str → Bool
  | [] => true
  | c :: _ => !isWordChar c

/-- Scanner for `re.sub(fr'(\W|^){label}(\W|$)', fr'\1({definition})\2', s)`
(source line 658).  `atStart` records whether the scan position is the start
of the string (where `^` can match with an empty group 1).  The consumed
group-1/group-2 characters are re-inserted around the parenthesised
definition.  This is the semantics of the source for labels drawn from the
label charset `[A-Za-z0-9_]+` and for definitions without backslashes
(backslash-digit sequences in a definition would be treated as template
escapes by `re.sub`). -/
def expandGoF (L D : Str) : Nat → Bool → Str → Str
  | 0, _, s => s
  | fuel + 1, atStart, s =>
    match s with
    | [] => []
    | c :: r =>
      if !isWordChar c && L.isPrefixOf r && wordBoundaryB (r.drop L.length) then
        match r.drop L.length with
        | [] => c :: '(' :: (D ++ [')'])
        | d :: r2 => c :: '(' :: (D ++ (')' :: d :: expandGoF L D fuel false r2))
      else if atStart && L.isPrefixOf (c :: r) && wordBoundaryB ((c :: r).drop L.length) then
        match (c :: r).drop L.length with
        | [] => '(' :: (D ++ [')'])
        | d :: r2 => '(' :: (D ++ (')' :: d :: expandGoF L D fuel false r2))
      else c :: expandGoF L D fuel false r

/-- The scan of `expandGoF` with enough fuel: every step consumes at least
one character, so `s.length` steps always finish the scan. -/
def expandGo (L D : Str) (atStart : Bool) (s : Str) : Str :=
  expandGoF L D s.length atStart s

/-- One compound-tag substitution over the whole string. -/
def expandSub (L D s : Str) : Str := expandGo L D true s

/-- One pass of source line 657-658: every compound tag substituted once,
in the order of the snapshot list. -/
def expandPass (tags : List (Str × Str)) (s : Str) : Str :=
  tags.foldl (fun q td => expandSub td.1 td.2 q) s

/-- `_SearchThread._MAXIMUM_DEPTH` (source line 602). -/
def MAXIMUM_DEPTH : Nat := 20

/-- The expansion loop of `_preprocess` (source lines 652-662):
`while query ≠ previous:` run a pass, count it, and fail once the depth
reaches `MAXIMUM_DEPTH`.  Returns the final string, the error flag
(`max recursion depth exceeded`), and the number of passes executed. -/
def expandLoopAux (tags : List (Str × Str)) : Nat → Str → Str → Nat →
    Str × Bool × Nat
  | gas, prev, s, depth =>
    if s = prev then (s, false, depth)
    else
      let t := expandPass tags s
      if MAXIMUM_DEPTH ≤ depth + 1 then (t, true, depth + 1)
      else
        match gas with
        | 0 => (t, true, depth + 1)
        | g + 1 => expandLoopAux tags g s t (depth + 1)

/-- The loop with its gas set to the remaining depth budget; the gas-0 case
of `expandLoopAux` is then unreachable, since the depth test fires first. -/
def expandLoop (tags : List (Str × Str)) (prev s : Str) (depth : Nat) :
    Str × Bool × Nat :=
  expandLoopAux tags (MAXIMUM_DEPTH - depth) prev s depth

/-- The expansion stage on a fresh query: `previous_query = ''`, `depth = 0`. -/
def expandQuery (tags : List (Str × Str)) (q : Str) : Str × Bool × Nat :=
  expandLoop tags [] q 0

/-- All of `_preprocess`: protect, expand, and — only when the depth error
did not fire — restore.  Returns the final query text and the error flag. -/
def preprocessR (tags : List (Str × Str)) (q : Str) : Str × Bool :=
  let st := protect q
  let e := expandLoop tags [] st.query 0
  if e.2.1 then (e.1, true) else (restoreAll st.table e.1, false)

/-- The i18n key used by `_preprocess` for the depth error. -/
def maxRecursionMsg : Str := "thread.search.error.max_recursion".toList

/-- The i18n key used by `run` when the store returns no result. -/
def imageLoadingMsg : Str := "thread.search.error.image_loading_error".toList

/-- The collaborators of `_SearchThread.run`: the compound-tag snapshot, the
query compiler `queries.query_to_sympy` (second argument = `simplify`;
a raised `ValueError` is the `error` case), and the image store.
`getImages`/`getTagless` return `none` for Python `None`. -/
structure SearchEnv (α β : Type) where
  tags : List (Str × Str)
  parse : Str → Bool → Except Str α
  trueExpr : α
  getImages : α → Option (List β)
  getTagless : Option (List β)

/-- Observable outcome of `_SearchThread.run`: the fetched images
(`none` for Python `None`), the error value, the list of compiler
invocations `(text, simplify)`, and whether `_preprocess` ran. -/
structure RunResult (β : Type) where
  images : Option (List β)
  error : Option Str
  parseCalls : List (Str × Bool)
  preprocessRan : Bool
deriving DecidableEq, Repr

/-- `_SearchThread.run` (source lines 616-636).  With `tagless` the
preprocessing and the compiler are skipped and the result is the direct
`get_tagless_images` store query; otherwise the query is preprocessed,
compiled with `simplify=True`, and evaluated; a `None` store result becomes
the image-loading error. -/
def runThread {α β : Type} (env : SearchEnv α β) (query : Str) (tagless : Bool) :
    RunResult β :=
  if tagless then
    { images := env.getTagless
      error := if env.getTagless.isNone then some imageLoadingMsg else none
      parseCalls := []
      preprocessRan := false }
  else
    let p := preprocessR env.tags query
    if p.2 then
      { images := some [], error := some maxRecursionMsg, parseCalls := [],
        preprocessRan := true }
    else
      match env.parse p.1 true with
      | .error e =>
        { images := some [], error := some e, parseCalls := [(p.1, true)],
          preprocessRan := true }
      | .ok ex =>
        { images := env.getImages ex
          error := if (env.getImages ex).isNone then some imageLoadingMsg else none
          parseCalls := [(p.1, true)]
          preprocessRan := true }

/-- `_SearchThread.failed` (source lines 673-676). -/
def failedB {β : Type} (r : RunResult β) : Bool := r.error.isSome

/-- i18n keys of `_TagsTab._check_cell_format`. -/
def invalidTagNameMsg : Str := "dialog.edit_tags.error.invalid_tag_name".toList

def duplicateTagNameMsg : Str := "dialog.edit_tags.error.duplicate_tag_name".toList

/-- `_TagsTab._check_cell_format` (source lines 716-724): only column 1
(the label) is checked, against the label pattern and for duplicates. -/
def tagsTabCheckCellFormat (labelOk : Str → Bool) (tagExists : Bool)
    (col : Nat) (text : Str) : Bool × Str :=
  if col = 1 then
    if !labelOk text then (false, invalidTagNameMsg)
    else if tagExists then (false, duplicateTagNameMsg)
    else (true, [])
  else (true, [])

/-- `CompoundTagsTab._check_cell_format` (source lines 831-841): the
superclass check first; for the definition column (2) the cell text is
additionally compiled with `queries.query_to_sympy(text, simplify=False)`,
and a raised `ValueError` rejects the cell with the error message. -/
def compoundCheckCellFormat {α : Type} (parse : Str → Bool → Except Str α)
    (labelOk : Str → Bool) (tagExists : Bool) (col : Nat) (text : Str) :
    Bool × Str :=
  let sup := tagsTabCheckCellFormat labelOk tagExists col text
  if !sup.1 then (false, sup.2)
  else if col = 2 then
    match parse text false with
    | .error e => (false, e)
    | .ok _ => (true, [])
  else (true, [])

/-- Scanner for Python `str.split()`: `acc` is the current token, reversed. -/
def splitTokensGo : Str → Str → List Str
  | acc, [] => if acc.isEmpty then [] else [acc.reverse]
  | acc, c :: r =>
    if isSpaceChar c then
      if acc.isEmpty then splitTokensGo [] r else acc.reverse :: splitTokensGo [] r
    else splitTokensGo (c :: acc) r

/-- Python `str.split()`: whitespace-separated tokens, empties discarded. -/
def splitTokens (s : Str) : List Str := splitTokensGo [] s

/-- Whether an `Except` value is a success (`try` block raised nothing). -/
def exceptOk {ε α : Type} : Except ε α → Bool
  | .ok _ => true
  | .error _ => false

/-! Concrete instances used by witnesses and counterexamples. -/

/-- A compound-tag snapshot forming a 19-step definition chain
`t1 → t2 → … → t19 → x`, listed in reverse order so that each expansion pass
performs exactly one rewriting step; the fixed point is reached exactly at
pass `MAXIMUM_DEPTH`. -/
def chainTags : List (Str × Str) :=
  (List.range 19).map (fun i =>
    let k := 19 - i
    (('t' :: natDigits k), if k = 19 then ['x'] else 't' :: natDigits (k + 1)))

/-- Store/compiler stub with a directly self-referential compound tag. -/
def envLoop : SearchEnv Unit Unit :=
  { tags := [(['a'], ['a'])]
    parse := fun _ _ => .ok ()
    trueExpr := ()
    getImages := fun _ => some []
    getTagless := some [] }

/-- Store/compiler stub whose compiler raises a `ValueError`. -/
def envParseErr : SearchEnv Unit Unit :=
  { tags := []
    parse := fun _ _ => .error ['E']
    trueExpr := ()
    getImages := fun _ => some []
    getTagless := some [] }

/-- Store/compiler stub whose store returns `None`. -/
def envNoImages : SearchEnv Unit Unit :=
  { tags := []
    parse := fun _ _ => .ok ()
    trueExpr := ()
    getImages := fun _ => none
    getTagless := none }

/-- Error strings of `EditImageDialog._get_error`. -/
def noTagsMsg : Str := "No tags specified!".toList

def compoundMsg : Str := "Compound tags are not allowed here!".toList

def invalidFormatMsg : Str := "Invalid tag format!".toList

/-- The per-token stripping of `_ensure_no_compound_tags` (source line 222):
keep the token if its first character is alphanumeric or an underscore,
otherwise drop that character. -/
def stripTagPrefixChar : Str → Str
  | [] => []
  | c :: r => if c.isAlphanum || c == '_' then c :: r else r

/-- `EditImageDialog._ensure_no_compound_tags` (source lines 219-225):
`isCompound t` stands for `tags_dao.get_tag_class(t) == model.CompoundTag`. -/
def ensureNoCompoundTags (isCompound : Str → Bool) (input : Str) : Bool :=
  (splitTokens input).all (fun t => !isCompound (stripTagPrefixChar t))

/-- `EditImageDialog._get_error` (source lines 227-236).  `fromStringOk t`
stands for `model.Tag.from_string(t)` raising no `ValueError`; a raise while
building the tag list yields the format error, then an empty list and a
compound tag are reported, in this order. -/
def getErrorModel (fromStringOk : Str → Bool) (isCompound : Str → Bool)
    (input : Str) : Option Str :=
  if (splitTokens input).any (fun t => !fromStringOk t) then some invalidFormatMsg
  else if (splitTokens input).length = 0 then some noTagsMsg
  else if !ensureNoCompoundTags isCompound input then some compoundMsg
  else none

/-- Substring occurrence test. -/
def occursInB (pat : Str) : Str → Bool
  | [] => pat.isEmpty
  | s@(_ :: r) => pat.isPrefixOf s || occursInB pat r

/-- A placeholder-like shape starts here: `%%`, at least one digit, `%`. -/
def shapeAtB (s : Str) : Bool :=
  match s with
  | '%' :: '%' :: r =>
    !(r.takeWhile Char.isDigit).isEmpty &&
      ((r.dropWhile Char.isDigit).head? == some '%')
  | _ => false

/-- The string contains a substring of the shape `%%<digits>%`. -/
def hasShapeB : Str → Bool
  | [] => false
  | s@(_ :: r) => shapeAtB s || hasShapeB r

/-- No newline character. -/
def noNlB (s : Str) : Bool := s.all (fun c => c != '\n')

/-- Last character is absent or a non-word character (valid left context for
a whole-word occurrence). -/
def endOkB (a : Str) : Bool :=
  match a.getLast? with
  | none => true
  | some c => !isWordChar c

/-- First character is absent or a non-word character (valid right context
for a whole-word occurrence). -/
def headOkB (b : Str) : Bool :=
  match b with
  | [] => true
  | c :: _ => !isWordChar c

/-- `L` occurs in `s` as a whole word (bounded by non-word characters or the
string ends) — the situations in which the pattern of source line 658 can
rewrite an occurrence of the label `L`. -/
def WW (L s : Str) : Prop :=
  ∃ a b, s = a ++ L ++ b ∧ endOkB a = true ∧ headOkB b = true

/-- Reconstruction of the original query from fragments and matched texts:
`weaveT [(F0, t1), (F1, t2), ...] last = F0 ++ t1 ++ F1 ++ t2 ++ ... ++ last`. -/
def weaveT : List (Str × Str) → Str → Str
  | [], last => last
  | p :: ps, last => p.1 ++ p.2 ++ weaveT ps last

/-- The protected working string: fragments interleaved with sentinels,
numbered consecutively from `i`. -/
def weaveS : Nat → List (Str × Str) → Str → Str
  | _, [], last => last
  | i, p :: ps, last => p.1 ++ sentinel i ++ weaveS (i + 1) ps last

/-- The placeholder table (`meta_tag_values`) built by the loop, numbered
consecutively from `i`. -/
def tableOf : Nat → List (Str × Str) → List (Nat × Str)
  | _, [] => []
  | i, p :: ps => (i, p.2) :: tableOf (i + 1) ps

/-! ## Theorems -/

/-- C6: with `tagless_images` set, `run` bypasses the whole compiler
pipeline: `_preprocess` does not run, `query_to_sympy` is never invoked, and
the result is exactly the direct `get_tagless_images` store query (with the
image-loading error when the store returns `None`). -/
theorem C6_tagless_bypasses_compiler {α β : Type} (env : SearchEnv α β) (q : Str) :
    runThread env q true =
      { images := env.getTagless
        error := if env.getTagless.isNone then some imageLoadingMsg else none
        parseCalls := []
        preprocessRan := false } := by
  rfl

/-- C7: compound-tag definition validation accepts a definition cell (column
2) exactly when `query_to_sympy(text, simplify=False)` raises no error — the
parse-only mode — while every compiler invocation made by a search run uses
`simplify=True`. -/
theorem C7_definition_validation_parse_only {α β : Type}
    (parse : Str → Bool → Except Str α) (labelOk : Str → Bool) (tagExists : Bool)
    (text : Str) (env : SearchEnv α β) (q : Str) (tl : Bool) :
    (compoundCheckCellFormat parse labelOk tagExists 2 text).1 =
      exceptOk (parse text false) ∧
    (runThread env q tl).parseCalls.all (fun c => c.2) = true := by
  constructor
  · simp only [compoundCheckCellFormat, tagsTabCheckCellFormat]
    cases parse text false <;> simp [exceptOk]
  · unfold runThread
    by_cases htl : tl
    · simp [htl]
    · simp only [htl, if_false]
      by_cases hp : (preprocessR env.tags q).2
      · simp [hp]
      · simp only [hp, if_false]
        cases env.parse (preprocessR env.tags q).1 true <;> simp

/-- C8: each failure path of a search — the depth error from `_preprocess`,
a compiler `ValueError`, or the store returning `None` — sets the thread's
error value (so `failed` is true and `error` carries the display message) and
is returned rather than raised; and `failed` holds exactly when `error` is
not `None`. -/
theorem C8_failure_paths {α β : Type} (env : SearchEnv α β) (q : Str) (tl : Bool) :
    (failedB (runThread env q tl) = true ↔ (runThread env q tl).error ≠ none) ∧
    ((preprocessR env.tags q).2 = true →
      (runThread env q false).error = some maxRecursionMsg) ∧
    (∀ e, (preprocessR env.tags q).2 = false →
      env.parse (preprocessR env.tags q).1 true = .error e →
      (runThread env q false).error = some e) ∧
    (∀ ex, (preprocessR env.tags q).2 = false →
      env.parse (preprocessR env.tags q).1 true = .ok ex →
      env.getImages ex = none →
      (runThread env q false).error = some imageLoadingMsg) ∧
    (env.getTagless = none → (runThread env q true).error = some imageLoadingMsg) := by
  refine ⟨?_, ?_, ?_, ?_, ?_⟩
  · simp [failedB, Option.isSome_iff_ne_none]
  · intro hp
    simp [runThread, hp]
  · intro e hp he
    simp [runThread, hp, he]
  · intro ex hp he hi
    simp [runThread, hp, he, hi]
  · intro hn
    simp [runThread, hn]

/-- C10: in the image-edit dialog the tag input is reported invalid exactly
when it is empty, some token has an invalid tag format, or some token's
label (after stripping a leading non-word prefix character) names a compound
tag; a valid input therefore contains no compound tag. -/
theorem C10_edit_image_tag_validation (fromStringOk isCompound : Str → Bool)
    (input : Str) :
    getErrorModel fromStringOk isCompound input ≠ none ↔
      (splitTokens input = [] ∨
       (∃ t ∈ splitTokens input, fromStringOk t = false) ∨
       (∃ t ∈ splitTokens input, isCompound (stripTagPrefixChar t) = true)) := by
  unfold getErrorModel
  by_cases h1 : (splitTokens input).any (fun t => !fromStringOk t)
  · simp only [h1, if_true]
    have : ∃ t ∈ splitTokens input, fromStringOk t = false := by
      rcases List.any_eq_true.mp h1 with ⟨t, ht, hf⟩
      exact ⟨t, ht, by simpa using hf⟩
    simp [this]
  · simp only [h1, if_false]
    by_cases h2 : (splitTokens input).length = 0
    · simp only [h2, if_true]
      simp [List.length_eq_zero.mp h2]
    · simp only [h2, if_false]
      have hne : ¬ splitTokens input = [] := by
        intro h; exact h2 (by simp [h])
      have hnf : ¬ ∃ t ∈ splitTokens input, fromStringOk t = false := by
        intro ⟨t, ht, hf⟩
        exact h1 (List.any_eq_true.mpr ⟨t, ht, by simp [hf]⟩)
      by_cases h3 : ensureNoCompoundTags isCompound input
      · simp only [h3, Bool.not_true, if_false]
        have : ¬ ∃ t ∈ splitTokens input, isCompound (stripTagPrefixChar t) = true := by
          intro ⟨t, ht, hc⟩
          have := List.all_eq_true.mp h3 t ht
          simp [hc] at this
        simp [hne, hnf, this]
      · have h3' : (!ensureNoCompoundTags isCompound input) = true := by
          simp only [Bool.not_eq_true] at h3 ⊢
          simp [h3]
        simp only [h3', if_true]
        have hc : ∃ t ∈ splitTokens input, isCompound (stripTagPrefixChar t) = true := by
          unfold ensureNoCompoundTags at h3
          have := (not_iff_not.mpr List.all_eq_true).mp h3
          push_neg at this
          rcases this with ⟨t, ht, hnt⟩
          exact ⟨t, ht, by simpa using hnt⟩
        simp [hc]

/-- C8 witness: the three failure paths and the failed-iff relation at
concrete stores/compilers. -/
theorem C8_witness :
    ((preprocessR envLoop.tags ['a']).2 = true ∧
      (runThread envLoop ['a'] false).error = some maxRecursionMsg) ∧
    ((preprocessR envParseErr.tags ['q']).2 = false ∧
      envParseErr.parse (preprocessR envParseErr.tags ['q']).1 true = .error ['E'] ∧
      (runThread envParseErr ['q'] false).error = some ['E']) ∧
    ((preprocessR envNoImages.tags ['q']).2 = false ∧
      envNoImages.getImages () = none ∧
      (runThread envNoImages ['q'] false).error = some imageLoadingMsg) ∧
    (envNoImages.getTagless = none ∧
      (runThread envNoImages ['q'] true).error = some imageLoadingMsg) ∧
    (failedB (runThread envLoop ['a'] false) = true ↔
      (runThread envLoop ['a'] false).error ≠ none) := by
  refine ⟨⟨by decide, ?_⟩, ⟨by decide, rfl, ?_⟩, ⟨by decide, rfl, ?_⟩, ⟨rfl, ?_⟩, ?_⟩
  · exact (C8_failure_paths envLoop ['a'] false).2.1 (by decide)
  · exact (C8_failure_paths envParseErr ['q'] false).2.2.1 ['E'] (by decide) rfl
  · exact (C8_failure_paths envNoImages ['q'] false).2.2.2.1 () (by decide) rfl rfl
  · exact (C8_failure_paths envNoImages ['q'] true).2.2.2.2 rfl
  · exact (C8_failure_paths envLoop ['a'] false).1

/-! ### The expansion loop: pass counting (C1, C2) -/

/-- Characterisation of the depth error: with the gas tied to the remaining
depth budget, the loop errors exactly when the current string differs from
`prev` and each of the next `gas - 1` passes changes the string. -/
theorem expandLoopAux_error_iff (tags : List (Str × Str)) :
    ∀ gas prev s depth, depth + gas = MAXIMUM_DEPTH → 0 < gas →
      ((expandLoopAux tags gas prev s depth).2.1 = true ↔
        s ≠ prev ∧ ∀ k < gas - 1,
          (expandPass tags)^[k + 1] s ≠ (expandPass tags)^[k] s) := by
  intro gas
  induction gas with
  | zero => intro prev s depth _ h0; omega
  | succ g ih =>
    intro prev s depth hsum _
    unfold expandLoopAux
    by_cases hsp : s = prev
    · simp [hsp]
    · simp only [hsp, if_false]
      by_cases hd : MAXIMUM_DEPTH ≤ depth + 1
      · have hg : g = 0 := by simp [MAXIMUM_DEPTH] at hsum hd; omega
        subst hg
        simp [hsp, hd]
      · have hg : g ≠ 0 := by simp [MAXIMUM_DEPTH] at hsum hd; omega
        obtain ⟨g', rfl⟩ : ∃ g', g = g' + 1 := ⟨g - 1, by omega⟩
        simp only [hd, if_false]
        rw [ih s (expandPass tags s) (depth + 1) (by omega) (by omega)]
        constructor
        · rintro ⟨h1, h2⟩
          refine ⟨hsp, ?_⟩
          intro k hk
          match k with
          | 0 => simpa using h1
          | k' + 1 =>
            have := h2 k' (by omega)
            simpa [Function.iterate_succ_apply] using this
        · rintro ⟨_, h2⟩
          refine ⟨by simpa using h2 0 (by omega), ?_⟩
          intro k hk
          have := h2 (k + 1) (by omega)
          simpa [Function.iterate_succ_apply] using this

/-- When the depth error fires, the reported pass count is exactly
`MAXIMUM_DEPTH`. -/
theorem expandLoopAux_error_count (tags : List (Str × Str)) :
    ∀ gas prev s depth, depth + gas = MAXIMUM_DEPTH → 0 < gas →
      (expandLoopAux tags gas prev s depth).2.1 = true →
      (expandLoopAux tags gas prev s depth).2.2 = MAXIMUM_DEPTH := by
  intro gas
  induction gas with
  | zero => intro prev s depth _ h0; omega
  | succ g ih =>
    intro prev s depth hsum _
    unfold expandLoopAux
    by_cases hsp : s = prev
    · simp [hsp]
    · simp only [hsp, if_false]
      by_cases hd : MAXIMUM_DEPTH ≤ depth + 1
      · intro _
        simp only [hd, if_true]
        simp [MAXIMUM_DEPTH] at hsum hd ⊢
        omega
      · have hg : g ≠ 0 := by simp [MAXIMUM_DEPTH] at hsum hd; omega
        obtain ⟨g', rfl⟩ : ∃ g', g = g' + 1 := ⟨g - 1, by omega⟩
        simp only [hd, if_false]
        exact ih s (expandPass tags s) (depth + 1) (by omega) (by omega)

/-- C1 (amended): the expansion loop reports the max-recursion error exactly
when the protected query is nonempty and each of the first
`MAXIMUM_DEPTH - 1` passes changes the string.  In particular the error
condition does not ask whether the final pass reaches a fixed point: a fixed
point first reached on pass `MAXIMUM_DEPTH` still errors
(`C1_counterexample`). -/
theorem C1_amended (tags : List (Str × Str)) (q : Str) :
    (expandQuery tags q).2.1 = true ↔
      q ≠ [] ∧ ∀ k < MAXIMUM_DEPTH - 1,
        (expandPass tags)^[k + 1] q ≠ (expandPass tags)^[k] q := by
  have := expandLoopAux_error_iff tags MAXIMUM_DEPTH [] q 0 (by omega)
    (by simp [MAXIMUM_DEPTH])
  simpa [expandQuery, expandLoop] using this

/-- C1 counterexample: with the 19-step chain snapshot and query `t1`, the
twentieth pass is the first that produces no change — a fixed point is
reached within the pass limit — yet the loop reports the max-recursion
error. -/
theorem C1_counterexample :
    (expandQuery chainTags ['t', '1']).2.1 = true ∧
    (fun s => expandPass chainTags s)^[MAXIMUM_DEPTH] ['t', '1'] =
      (fun s => expandPass chainTags s)^[MAXIMUM_DEPTH - 1] ['t', '1'] := by
  constructor
  · decide
  · decide

/-! ### The protection loop terminates within the colon count (C9) -/

/-- Inversion for a successful `matchAt`: the decomposition of the input and
the shape of the matched text. -/
theorem matchAt_some_elim {s t : Str} (h : matchAt s = some t) :
    ∃ r3 d r5 m,
      (s.takeWhile isWordChar).isEmpty = false ∧
      (s.dropWhile isWordChar).dropWhile isSpaceChar = ':' :: r3 ∧
      r3.dropWhile isSpaceChar = d :: r5 ∧
      isDelimChar d = true ∧
      valueClose d r5 = some m ∧
      t = s.takeWhile isWordChar ++
        (s.dropWhile isWordChar).takeWhile isSpaceChar ++
        ':' :: (r3.takeWhile isSpaceChar ++ d :: r5.take (m + 1)) := by
  unfold matchAt at h
  split at h
  · exact absurd h (by simp)
  · split at h
    · split at h
      · split at h
        · split at h
          · refine ⟨_, _, _, _, ?_, by assumption, by assumption, by assumption,
              by assumption, (Option.some_inj.mp h).symm⟩
            exact Bool.eq_false_iff.mpr (by assumption)
          · exact absurd h (by simp)
        · exact absurd h (by simp)
      · exact absurd h (by simp)
    · exact absurd h (by simp)

theorem matchAt_colon {s t : Str} (h : matchAt s = some t) : ':' ∈ t := by
  obtain ⟨r3, d, r5, m, -, -, -, -, -, ht⟩ := matchAt_some_elim h
  subst ht
  simp

theorem matchAt_ne_nil {s t : Str} (h : matchAt s = some t) : t ≠ [] := by
  obtain ⟨r3, d, r5, m, hw, -, -, -, -, ht⟩ := matchAt_some_elim h
  subst ht
  intro hnil
  rcases List.append_eq_nil.mp (List.append_eq_nil.mp hnil).1 with ⟨h1, -⟩
  simp [h1] at hw

/-- A successful match is a prefix of the scanned string. -/
theorem matchAt_some_prefix {s t : Str} (h : matchAt s = some t) :
    s = t ++ s.drop t.length := by
  obtain ⟨r3, d, r5, m, hw, hr2, hr4, -, -, ht⟩ := matchAt_some_elim h
  have hs1 : s = s.takeWhile isWordChar ++ s.dropWhile isWordChar :=
    (List.takeWhile_append_dropWhile _ _).symm
  have hs2 : s.dropWhile isWordChar =
      (s.dropWhile isWordChar).takeWhile isSpaceChar ++ ':' :: r3 := by
    conv_lhs => rw [← List.takeWhile_append_dropWhile isSpaceChar (s.dropWhile isWordChar)]
    rw [hr2]
  have hs3 : r3 = r3.takeWhile isSpaceChar ++ d :: r5 := by
    conv_lhs => rw [← List.takeWhile_append_dropWhile isSpaceChar r3]
    rw [hr4]
  have hs4 : r5 = r5.take (m + 1) ++ r5.drop (m + 1) :=
    (List.take_append_drop _ _).symm
  have hs : s = t ++ r5.drop (m + 1) := by
    rw [ht]
    conv_lhs => rw [hs1, hs2, hs3]
    conv_lhs => rw [hs4]
    simp
  rw [hs, List.drop_left]

/-- Structure of `findMatch`: the decomposition, the match at the found
position, and leftmost-ness. -/
theorem findMatch_some {s p t q : Str} (h : findMatch s = some (p, t, q)) :
    s = p ++ t ++ q ∧ matchAt (t ++ q) = some t ∧
      ∀ j < p.length, matchAt (s.drop j) = none := by
  induction s generalizing p with
  | nil => simp [findMatch] at h
  | cons c r ih =>
    unfold findMatch at h
    rcases hm : matchAt (c :: r) with _ | t0 <;> rw [hm] at h
    · rcases hfm : findMatch r with _ | ⟨⟨p', t', q'⟩⟩ <;> rw [hfm] at h
      · simp at h
      · simp only [Option.map_some', Option.some_inj, Prod.mk.injEq] at h
        obtain ⟨hp, ht, hq⟩ := h
        subst hp; subst ht; subst hq
        obtain ⟨h1, h2, h3⟩ := ih hfm
        refine ⟨by simp [h1], h2, ?_⟩
        intro j hj
        match j with
        | 0 => simpa using hm
        | j' + 1 =>
          have := h3 j' (by simpa using hj)
          simpa using this
    · simp only [Option.some_inj, Prod.mk.injEq] at h
      obtain ⟨hp, ht, hq⟩ := h
      subst hp; subst ht; subst hq
      have hpre := matchAt_some_prefix hm
      refine ⟨by simpa using hpre, ?_, by simp⟩
      rw [← hpre]
      exact hm

/-- If the pattern occurs, `replaceFirst` replaces one occurrence. -/
theorem replaceFirst_splices {pat rep s x y : Str} (hpat : pat ≠ [])
    (hocc : s = x ++ pat ++ y) :
    ∃ u v, s = u ++ pat ++ v ∧ replaceFirst pat rep s = u ++ rep ++ v := by
  induction s generalizing x with
  | nil =>
    exact absurd (List.append_eq_nil.mp (List.append_eq_nil.mp hocc.symm).1).2 hpat
  | cons c r ih =>
    by_cases hp : (!pat.isEmpty && pat.isPrefixOf (c :: r)) = true
    · refine ⟨[], (c :: r).drop pat.length, ?_, ?_⟩
      · have hpre : pat <+: c :: r := by
          have := (Bool.and_eq_true _ _).mp hp
          exact List.isPrefixOf_iff_prefix.mp this.2
        obtain ⟨w, hw⟩ := hpre
        simp [← hw]
      · unfold replaceFirst
        simp [hp]
    · have hpe : pat.isEmpty = false := by
        cases pat with
        | nil => exact absurd rfl hpat
        | cons a l => rfl
      have hx : x ≠ [] := by
        rintro rfl
        apply hp
        simp only [hpe, Bool.not_false, Bool.true_and]
        exact List.isPrefixOf_iff_prefix.mpr ⟨y, by simpa using hocc.symm⟩
      rcases x with _ | ⟨cx, x'⟩
      · exact absurd rfl hx
      · have hcx : cx = c ∧ r = x' ++ pat ++ y := by
          constructor
          · have := hocc
            simp only [List.cons_append, List.cons.injEq] at this
            exact this.1.symm
          · have := hocc
            simp only [List.cons_append, List.cons.injEq] at this
            exact this.2
        obtain ⟨u, v, hr, hrep⟩ := ih hcx.2
        refine ⟨c :: u, v, by simp [hr], ?_⟩
        unfold replaceFirst
        simp only [hp, if_false]
        simp [hrep]

theorem natDigitsGo_all_digit :
    ∀ fuel n, n < fuel → ∀ ch ∈ natDigitsGo fuel n, ch.isDigit = true := by
  intro fuel
  induction fuel with
  | zero => omega
  | succ f ih =>
    intro n hn ch hch
    unfold natDigitsGo at hch
    by_cases h10 : n < 10
    · simp only [h10, if_true, List.mem_singleton] at hch
      subst hch
      interval_cases n <;> decide
    · simp only [h10, if_false, List.mem_append, List.mem_singleton] at hch
      rcases hch with hch | hch
      · have hdiv : n / 10 < f := by
          have h1 : n / 10 < n := Nat.div_lt_self (by omega) (by omega)
          omega
        exact ih (n / 10) hdiv ch hch
      · subst hch
        have hm : n % 10 < 10 := Nat.mod_lt _ (by omega)
        set k := n % 10 with hk
        interval_cases k <;> decide

theorem natDigits_all_digit (n : Nat) : ∀ ch ∈ natDigits n, ch.isDigit = true :=
  natDigitsGo_all_digit (n + 1) n (Nat.lt_succ_self n)

theorem natDigits_ne_nil (n : Nat) : natDigits n ≠ [] := by
  unfold natDigits natDigitsGo
  split <;> simp

/-- The placeholder contains no colon. -/
theorem sentinel_no_colon (i : Nat) : ':' ∉ sentinel i := by
  intro hmem
  simp only [sentinel, List.mem_cons, List.mem_append, List.mem_singleton] at hmem
  rcases hmem with h | h | h | h | h
  · exact absurd h (by decide)
  · exact absurd h (by decide)
  · have := natDigits_all_digit i ':' h
    exact absurd this (by decide)
  · exact absurd h (by decide)
  · exact absurd h (by decide)

/-- Protection-loop invariant: with fuel exceeding the colon count, the loop
reaches a string with no further match, and performs at most `countColon s`
further iterations. -/
theorem protectLoop_spec :
    ∀ fuel s idx tab pos, countColon s < fuel →
      findMatch (protectLoop fuel s idx tab pos).query = none ∧
      (protectLoop fuel s idx tab pos).table.length ≤ tab.length + countColon s := by
  intro fuel
  induction fuel with
  | zero => omega
  | succ f ih =>
    intro s idx tab pos hfuel
    unfold protectLoop
    rcases hfm : findMatch s with _ | ⟨⟨p, t, q⟩⟩ <;> dsimp only
    · exact ⟨by simpa using hfm, by simp⟩
    · obtain ⟨hdec, hmt, -⟩ := findMatch_some hfm
      have hcolon : ':' ∈ t := matchAt_colon hmt
      have htne : t ≠ [] := matchAt_ne_nil hmt
      obtain ⟨u, v, hs, hrep⟩ :=
        @replaceFirst_splices t (sentinel (idx + 1)) s p q htne (by simpa using hdec)
      have hcount : countColon (replaceFirst t (sentinel (idx + 1)) s) < countColon s := by
        rw [hrep, hs]
        simp only [countColon, List.count_append]
        have h1 : 0 < t.count ':' := List.count_pos_iff.mpr hcolon
        have h2 : (sentinel (idx + 1)).count ':' = 0 :=
          List.count_eq_zero.mpr (sentinel_no_colon (idx + 1))
        omega
      have := ih (replaceFirst t (sentinel (idx + 1)) s) (idx + 1)
        (tab ++ [(idx + 1, t)]) (pos ++ [p.length]) (by omega)
      refine ⟨this.1, ?_⟩
      have := this.2
      simp only [List.length_append, List.length_singleton] at this
      omega

/-- C9: the literal-protection loop terminates — it reaches a string with no
further metatag match — after at most `countColon q` iterations, because each
iteration replaces a matched text containing a colon by a colon-free
placeholder. -/
theorem C9_protection_terminates (q : Str) :
    findMatch (protect q).query = none ∧ (protect q).table.length ≤ countColon q := by
  have := protectLoop_spec (countColon q + 1) q 0 [] [] (by omega)
  simpa [protect] using this

/-! ### The compound-tag substitution scanner (C1, C2, C5) -/

theorem expandGoF_nil (L D : Str) (fuel : Nat) (b : Bool) :
    expandGoF L D fuel b [] = [] := by
  cases fuel <;> rfl

/-- The scan result does not depend on the fuel once the fuel covers the
string length. -/
theorem expandGoF_congr (L D : Str) :
    ∀ n f1 f2 (b : Bool) (s : Str), s.length ≤ n → s.length ≤ f1 → s.length ≤ f2 →
      expandGoF L D f1 b s = expandGoF L D f2 b s := by
  intro n
  induction n with
  | zero =>
    intro f1 f2 b s hn _ _
    have : s = [] := List.length_eq_zero.mp (Nat.le_zero.mp hn)
    subst this
    rw [expandGoF_nil, expandGoF_nil]
  | succ n ih =>
    intro f1 f2 b s hn h1 h2
    cases s with
    | nil => rw [expandGoF_nil, expandGoF_nil]
    | cons c r =>
      match f1, f2 with
      | 0, _ => simp at h1
      | _, 0 => simp at h2
      | g1 + 1, g2 + 1 =>
        simp only [List.length_cons] at hn h1 h2
        show expandGoF L D (g1 + 1) b (c :: r) = expandGoF L D (g2 + 1) b (c :: r)
        unfold expandGoF
        dsimp only
        by_cases hA : (!isWordChar c && L.isPrefixOf r && wordBoundaryB (r.drop L.length)) = true
        · rw [if_pos hA, if_pos hA]
          rcases hdrop : r.drop L.length with _ | ⟨d, r2⟩
          · rfl
          · dsimp only
            have hlen : r2.length + 1 ≤ r.length := by
              have := congrArg List.length hdrop
              simp at this
              omega
            rw [ih g1 g2 false r2 (by omega) (by omega) (by omega)]
        · rw [if_neg hA, if_neg hA]
          by_cases hB : (b && L.isPrefixOf (c :: r) &&
              wordBoundaryB ((c :: r).drop L.length)) = true
          · rw [if_pos hB, if_pos hB]
            rcases hdrop : (c :: r).drop L.length with _ | ⟨d, r2⟩
            · rfl
            · dsimp only
              have hlen : r2.length + 1 ≤ r.length + 1 := by
                have := congrArg List.length hdrop
                simp at this
                omega
              rw [ih g1 g2 false r2 (by omega) (by omega) (by omega)]
          · rw [if_neg hB, if_neg hB]
            rw [ih g1 g2 false r (by omega) (by omega) (by omega)]

theorem expandGo_eq_expandGoF (L D : Str) (f : Nat) (b : Bool) (s : Str)
    (hf : s.length ≤ f) : expandGo L D b s = expandGoF L D f b s :=
  expandGoF_congr L D s.length s.length f b s le_rfl le_rfl hf

theorem expandGo_nil (L D : Str) (b : Bool) : expandGo L D b [] = [] := rfl

/-- One-step unfolding of the scan, phrased without fuel. -/
theorem expandGo_cons (L D : Str) (b : Bool) (c : Char) (r : Str) :
    expandGo L D b (c :: r) =
      if !isWordChar c && L.isPrefixOf r && wordBoundaryB (r.drop L.length) then
        match r.drop L.length with
        | [] => c :: '(' :: (D ++ [')'])
        | d :: r2 => c :: '(' :: (D ++ (')' :: d :: expandGo L D false r2))
      else if b && L.isPrefixOf (c :: r) && wordBoundaryB ((c :: r).drop L.length) then
        match (c :: r).drop L.length with
        | [] => '(' :: (D ++ [')'])
        | d :: r2 => '(' :: (D ++ (')' :: d :: expandGo L D false r2))
      else c :: expandGo L D false r := by
  show expandGoF L D (r.length + 1) b (c :: r) = _
  unfold expandGoF
  dsimp only
  by_cases hA : (!isWordChar c && L.isPrefixOf r && wordBoundaryB (r.drop L.length)) = true
  · rw [if_pos hA, if_pos hA]
    rcases hdrop : r.drop L.length with _ | ⟨d, r2⟩
    · rfl
    · dsimp only
      have hlen : r2.length + 1 ≤ r.length := by
        have := congrArg List.length hdrop
        simp at this
        omega
      rw [← expandGo_eq_expandGoF L D r.length false r2 (by omega)]
  · rw [if_neg hA, if_neg hA]
    by_cases hB : (b && L.isPrefixOf (c :: r) &&
        wordBoundaryB ((c :: r).drop L.length)) = true
    · rw [if_pos hB, if_pos hB]
      rcases hdrop : (c :: r).drop L.length with _ | ⟨d, r2⟩
      · rfl
      · dsimp only
        have hlen : r2.length + 1 ≤ r.length + 1 := by
          have := congrArg List.length hdrop
          simp at this
          omega
        rw [← expandGo_eq_expandGoF L D r.length false r2 (by omega)]
    · rw [if_neg hB, if_neg hB]
      rw [← expandGo_eq_expandGoF L D r.length false r (by omega)]

/-- Step equation: the else branch (no match attempt starts here). -/
theorem expandGo_step_else {L D : Str} {b : Bool} {c : Char} {r : Str}
    (hA : ¬(!isWordChar c && L.isPrefixOf r && wordBoundaryB (r.drop L.length)) = true)
    (hB : ¬(b && L.isPrefixOf (c :: r) && wordBoundaryB ((c :: r).drop L.length)) = true) :
    expandGo L D b (c :: r) = c :: expandGo L D false r := by
  rw [expandGo_cons, if_neg hA, if_neg hB]

/-- Step equation: the group-1 branch with a following group-2 character. -/
theorem expandGo_step_A {L D : Str} {b : Bool} {c : Char} {r : Str} {d : Char} {r2 : Str}
    (hA : (!isWordChar c && L.isPrefixOf r && wordBoundaryB (r.drop L.length)) = true)
    (hdrop : r.drop L.length = d :: r2) :
    expandGo L D b (c :: r) = c :: '(' :: (D ++ (')' :: d :: expandGo L D false r2)) := by
  rw [expandGo_cons, if_pos hA, hdrop]

/-- Step equation: the group-1 branch at the end of the string. -/
theorem expandGo_step_A_nil {L D : Str} {b : Bool} {c : Char} {r : Str}
    (hA : (!isWordChar c && L.isPrefixOf r && wordBoundaryB (r.drop L.length)) = true)
    (hdrop : r.drop L.length = []) :
    expandGo L D b (c :: r) = c :: '(' :: (D ++ [')']) := by
  rw [expandGo_cons, if_pos hA, hdrop]

/-- Step equation: the string-start branch with a following character. -/
theorem expandGo_step_B {L D : Str} {c : Char} {r : Str} {d : Char} {r2 : Str}
    (hA : ¬(!isWordChar c && L.isPrefixOf r && wordBoundaryB (r.drop L.length)) = true)
    (hB : (L.isPrefixOf (c :: r) && wordBoundaryB ((c :: r).drop L.length)) = true)
    (hdrop : (c :: r).drop L.length = d :: r2) :
    expandGo L D true (c :: r) = '(' :: (D ++ (')' :: d :: expandGo L D false r2)) := by
  rw [expandGo_cons, if_neg hA, if_pos (by simpa using hB), hdrop]

/-- Step equation: the string-start branch consuming the whole string. -/
theorem expandGo_step_B_nil {L D : Str} {c : Char} {r : Str}
    (hA : ¬(!isWordChar c && L.isPrefixOf r && wordBoundaryB (r.drop L.length)) = true)
    (hB : (L.isPrefixOf (c :: r) && wordBoundaryB ((c :: r).drop L.length)) = true)
    (hdrop : (c :: r).drop L.length = []) :
    expandGo L D true (c :: r) = '(' :: (D ++ [')']) := by
  rw [expandGo_cons, if_neg hA, if_pos (by simpa using hB), hdrop]

/-- The scan copies a run of word characters verbatim: no replacement can
begin at a word character away from the string start. -/
theorem expandGo_word_run (L D : Str) :
    ∀ (w bb : Str), (∀ ch ∈ w, isWordChar ch = true) →
      expandGo L D false (w ++ bb) = w ++ expandGo L D false bb := by
  intro w
  induction w with
  | nil => intro bb _; rfl
  | cons c w' ih =>
    intro bb hw
    have hc : isWordChar c = true := hw c (by simp)
    have hstep := expandGo_step_else (L := L) (D := D) (b := false) (c := c)
      (r := w' ++ bb) (by simp [hc]) (by simp)
    rw [List.cons_append, hstep, ih bb (fun ch hch => hw ch (by simp [hch]))]
    simp

/-- The scan at a non-start position preserves the first character. -/
theorem expandGo_head (L D : Str) (c : Char) (r : Str) :
    ∃ w, expandGo L D false (c :: r) = c :: w := by
  by_cases hA : (!isWordChar c && L.isPrefixOf r && wordBoundaryB (r.drop L.length)) = true
  · rcases hdrop : r.drop L.length with _ | ⟨d, r2⟩
    · exact ⟨_, expandGo_step_A_nil hA hdrop⟩
    · exact ⟨_, expandGo_step_A hA hdrop⟩
  · exact ⟨_, expandGo_step_else hA (by simp)⟩

/-- A word-only label that matches as a whole word at the start of
`M ++ bb`, where `M` is a whole word there, must equal `M`. -/
theorem word_label_prefix_eq {L M bb : Str}
    (hLw : ∀ c ∈ L, isWordChar c = true) (hMw : ∀ c ∈ M, isWordChar c = true)
    (hbb : headOkB bb = true)
    (hpre : L.isPrefixOf (M ++ bb) = true)
    (hbd : wordBoundaryB ((M ++ bb).drop L.length) = true) : L = M := by
  have hp : L <+: M ++ bb := List.isPrefixOf_iff_prefix.mp hpre
  have hLlen : L.length ≤ M.length + bb.length := by
    have := hp.length_le
    simpa using this
  rcases Nat.lt_trichotomy L.length M.length with hlt | heq | hgt
  · exfalso
    have hdrop : (M ++ bb).drop L.length = M.drop L.length ++ bb := by
      rw [List.drop_append_of_le_length (by omega)]
    have hne : M.drop L.length ≠ [] := by
      intro hnil
      have := congrArg List.length hnil
      simp at this
      omega
    rcases hd : M.drop L.length with _ | ⟨m0, mr⟩
    · exact hne hd
    · have hm0 : m0 ∈ M := by
        have : m0 ∈ M.drop L.length := by simp [hd]
        exact List.mem_of_mem_drop this
      have : isWordChar m0 = true := hMw m0 hm0
      rw [hdrop, hd] at hbd
      simp [wordBoundaryB, this] at hbd
  · have : L = (M ++ bb).take L.length := List.prefix_iff_eq_take.mp hp
    rw [this, heq, List.take_left]
  · exfalso
    have htake : L = (M ++ bb).take L.length := List.prefix_iff_eq_take.mp hp
    rcases bb with _ | ⟨b0, br⟩
    · simp at hLlen; omega
    · have hsplit : L = M ++ (b0 :: br).take (L.length - M.length) := by
        conv_lhs => rw [htake]
        rw [List.take_append_eq_append_take,
          List.take_of_length_le (le_of_lt hgt)]
      have hb0 : b0 ∈ L := by
        rw [hsplit]
        refine List.mem_append_right _ ?_
        rcases hL' : L.length - M.length with _ | k
        · omega
        · simp [hL']
      have hw := hLw b0 hb0
      simp only [headOkB, Bool.not_eq_true'] at hbb
      rw [hw] at hbb
      cases hbb

theorem and3_elim {x y z : Bool} (h : (x && y && z) = true) :
    x = true ∧ y = true ∧ z = true := by
  simp only [Bool.and_eq_true] at h
  exact ⟨h.1.1, h.1.2, h.2⟩

theorem count_paren_eq_zero_of_word {L : Str} (hL : ∀ c ∈ L, isWordChar c = true) :
    L.count '(' = 0 :=
  List.count_eq_zero.mpr (fun h => absurd (hL '(' h) (by decide))

/-- A fired group-1 test decomposes the scanned tail. -/
theorem tail_decomp_of_fire {L r : Str} {d : Char} {r2 : Str}
    (hpre : L.isPrefixOf r = true) (hdrop : r.drop L.length = d :: r2) :
    r = L ++ d :: r2 := by
  have := List.prefix_iff_eq_append.mp (List.isPrefixOf_iff_prefix.mp hpre)
  rw [hdrop] at this
  exact this.symm

theorem tail_eq_of_fire_nil {L r : Str}
    (hpre : L.isPrefixOf r = true) (hdrop : r.drop L.length = []) : r = L := by
  have := List.prefix_iff_eq_append.mp (List.isPrefixOf_iff_prefix.mp hpre)
  rw [hdrop] at this
  simpa using this.symm

/-- The scan never loses an opening parenthesis (for labels from the label
charset, which contain none). -/
theorem expandGo_count_paren (L D : Str) (hL : ∀ c ∈ L, isWordChar c = true) :
    ∀ n (s : Str), s.length ≤ n → ∀ b, s.count '(' ≤ (expandGo L D b s).count '(' := by
  intro n
  induction n with
  | zero =>
    intro s hs b
    have : s = [] := List.length_eq_zero.mp (Nat.le_zero.mp hs)
    subst this
    simp [expandGo_nil]
  | succ n ih =>
    intro s hs b
    cases s with
    | nil => simp [expandGo_nil]
    | cons c r =>
      simp only [List.length_cons] at hs
      by_cases hA : (!isWordChar c && L.isPrefixOf r && wordBoundaryB (r.drop L.length)) = true
      · obtain ⟨-, hpre, -⟩ := and3_elim hA
        rcases hdrop : r.drop L.length with _ | ⟨d, r2⟩
        · rw [expandGo_step_A_nil hA hdrop, tail_eq_of_fire_nil hpre hdrop]
          simp [List.count_cons, List.count_append, count_paren_eq_zero_of_word hL]
        · rw [expandGo_step_A hA hdrop, tail_decomp_of_fire hpre hdrop]
          have hlen : r2.length ≤ n := by
            have := congrArg List.length (tail_decomp_of_fire hpre hdrop)
            simp at this
            omega
          have hrec := ih r2 hlen false
          simp [List.count_cons, List.count_append, count_paren_eq_zero_of_word hL]
          omega
      · by_cases hB : (b && L.isPrefixOf (c :: r) &&
            wordBoundaryB ((c :: r).drop L.length)) = true
        · obtain ⟨hb, hpre, hbd⟩ := and3_elim hB
          subst hb
          rcases hdrop : (c :: r).drop L.length with _ | ⟨d, r2⟩
          · rw [expandGo_step_B_nil hA (by simp [hpre, hbd]) hdrop]
            have hcr := tail_eq_of_fire_nil hpre hdrop
            have h0 : (c :: r).count '(' = 0 := by
              rw [hcr]; exact count_paren_eq_zero_of_word hL
            rw [h0]
            exact Nat.zero_le _
          · rw [expandGo_step_B hA (by simp [hpre, hbd]) hdrop]
            have hdec := tail_decomp_of_fire hpre hdrop
            have hlen : r2.length ≤ n := by
              have := congrArg List.length hdec
              simp at this
              omega
            have hrec := ih r2 hlen false
            rw [hdec]
            simp [List.count_cons, List.count_append, count_paren_eq_zero_of_word hL]
            omega
        · rw [expandGo_step_else hA hB]
          have hrec := ih r (by omega) false
          simp [List.count_cons]
          omega

/-- A whole-word occurrence of the label forces a replacement: the count of
opening parentheses strictly grows, and the output carries the parenthesised
definition as an infix. -/
theorem expandGo_fire (L D : Str) (hL : ∀ c ∈ L, isWordChar c = true)
    (hLne : L ≠ []) :
    ∀ n (s : Str) (b : Bool) (a bb : Str), s.length ≤ n → s = a ++ L ++ bb →
      endOkB a = true → headOkB bb = true → (a = [] → b = true) →
      s.count '(' < (expandGo L D b s).count '(' ∧
      ∃ x y, expandGo L D b s = x ++ '(' :: (D ++ ')' :: y) := by
  intro n
  induction n with
  | zero =>
    intro s b a bb hs hocc _ _ _
    exfalso
    have : s = [] := List.length_eq_zero.mp (Nat.le_zero.mp hs)
    subst this
    have hlen := congrArg List.length hocc
    simp only [List.length_nil, List.length_append] at hlen
    have hL0 : L.length = 0 := by omega
    exact hLne (List.length_eq_zero.mp hL0)
  | succ n ih =>
    intro s b a bb hs hocc ha hbb hstart
    cases s with
    | nil =>
      exfalso
      have hlen := congrArg List.length hocc
      simp only [List.length_nil, List.length_append] at hlen
      have hL0 : L.length = 0 := by omega
      exact hLne (List.length_eq_zero.mp hL0)
    | cons c r =>
      simp only [List.length_cons] at hs
      by_cases hA : (!isWordChar c && L.isPrefixOf r && wordBoundaryB (r.drop L.length)) = true
      · obtain ⟨-, hpre, -⟩ := and3_elim hA
        rcases hdrop : r.drop L.length with _ | ⟨d, r2⟩
        · rw [expandGo_step_A_nil hA hdrop]
          refine ⟨?_, [c], [], by simp⟩
          rw [tail_eq_of_fire_nil hpre hdrop]
          simp [List.count_cons, List.count_append, count_paren_eq_zero_of_word hL]
        · rw [expandGo_step_A hA hdrop]
          refine ⟨?_, [c], d :: expandGo L D false r2, by simp⟩
          rw [tail_decomp_of_fire hpre hdrop]
          have hlen : r2.length ≤ n := by
            have := congrArg List.length (tail_decomp_of_fire hpre hdrop)
            simp at this
            omega
          have hrec := expandGo_count_paren L D hL n r2 hlen false
          simp [List.count_cons, List.count_append, count_paren_eq_zero_of_word hL]
          omega
      · by_cases hB : (b && L.isPrefixOf (c :: r) &&
            wordBoundaryB ((c :: r).drop L.length)) = true
        · obtain ⟨hb, hpre, hbd⟩ := and3_elim hB
          subst hb
          rcases hdrop : (c :: r).drop L.length with _ | ⟨d, r2⟩
          · rw [expandGo_step_B_nil hA (by simp [hpre, hbd]) hdrop]
            refine ⟨?_, [], [], by simp⟩
            have hcr := tail_eq_of_fire_nil hpre hdrop
            have h0 : (c :: r).count '(' = 0 := by
              rw [hcr]; exact count_paren_eq_zero_of_word hL
            rw [h0]
            simp [List.count_cons, List.count_append]
          · rw [expandGo_step_B hA (by simp [hpre, hbd]) hdrop]
            refine ⟨?_, [], d :: expandGo L D false r2, by simp⟩
            have hdec := tail_decomp_of_fire hpre hdrop
            have hlen : r2.length ≤ n := by
              have := congrArg List.length hdec
              simp at this
              omega
            have hrec := expandGo_count_paren L D hL n r2 hlen false
            rw [hdec]
            simp [List.count_cons, List.count_append, count_paren_eq_zero_of_word hL]
            omega
        · -- no replacement starts here: the occurrence lies strictly inside
          rcases a with _ | ⟨a0, a'⟩
          · exfalso
            apply hB
            have hb := hstart rfl
            subst hb
            simp only [List.nil_append] at hocc
            have hpre : L.isPrefixOf (c :: r) = true := by
              rw [hocc]
              exact List.isPrefixOf_iff_prefix.mpr ⟨bb, rfl⟩
            have hbd : wordBoundaryB ((c :: r).drop L.length) = true := by
              rw [hocc, List.drop_left]
              exact hbb
            simp [hpre, hbd]
          · rcases a' with _ | ⟨a1, a''⟩
            · exfalso
              apply hA
              have hc0 : c = a0 := by
                have := hocc
                simp only [List.cons_append, List.cons.injEq] at this
                exact this.1
              have hr : r = L ++ bb := by
                have := hocc
                simp only [List.cons_append, List.cons.injEq, List.nil_append] at this
                exact this.2
              have hnw : isWordChar c = false := by
                rw [hc0]
                simpa [endOkB] using ha
              have hpre : L.isPrefixOf r = true := by
                rw [hr]
                exact List.isPrefixOf_iff_prefix.mpr ⟨bb, rfl⟩
              have hbd : wordBoundaryB (r.drop L.length) = true := by
                rw [hr, List.drop_left]
                exact hbb
              simp [hnw, hpre, hbd]
            · have hc0 : c = a0 := by
                have := hocc
                simp only [List.cons_append, List.cons.injEq] at this
                exact this.1
              have hr : r = (a1 :: a'') ++ L ++ bb := by
                have := hocc
                simp only [List.cons_append, List.cons.injEq] at this
                exact this.2
              have ha' : endOkB (a1 :: a'') = true := by
                simpa [endOkB] using ha
              rw [expandGo_step_else hA hB]
              obtain ⟨hcnt, x, y, hshape⟩ := ih r false (a1 :: a'') bb (by omega) hr
                ha' hbb (by simp)
              refine ⟨?_, c :: x, y, by simp [hshape]⟩
              simp only [List.count_cons]
              omega

theorem endOkB_cons {a0 : Char} {t : Str} (h : t ≠ []) :
    endOkB (a0 :: t) = endOkB t := by
  rcases t with _ | ⟨x, xs⟩
  · exact absurd rfl h
  · unfold endOkB
    rw [List.getLast?_cons_cons]

theorem endOkB_append {x y : Str} (h : y ≠ []) :
    endOkB (x ++ y) = endOkB y := by
  unfold endOkB
  rw [List.getLast?_append_of_ne_nil _ h]

theorem endOkB_concat (x : Str) (d : Char) :
    endOkB (x ++ [d]) = !isWordChar d := by
  unfold endOkB
  rw [List.getLast?_concat]

theorem headOkB_cons (d : Char) (w : Str) : headOkB (d :: w) = !isWordChar d := rfl

/-- Extract the final, non-word character of a valid left context. -/
theorem endOkB_elim {a : Str} (hne : a ≠ []) (h : endOkB a = true) :
    ∃ ch t, a = t ++ [ch] ∧ isWordChar ch = false := by
  refine ⟨a.getLast hne, a.dropLast, (List.dropLast_append_getLast hne).symm, ?_⟩
  unfold endOkB at h
  rw [List.getLast?_eq_getLast a hne] at h
  simpa using h

/-- A prefix at least as long as the first appended block contains it. -/
theorem prefix_absorbs {L x z : Str} (hpre : L.isPrefixOf (x ++ z) = true)
    (hlen : x.length ≤ L.length) : ∃ w, L = x ++ w := by
  have hp := List.isPrefixOf_iff_prefix.mp hpre
  have htake := List.prefix_iff_eq_take.mp hp
  refine ⟨z.take (L.length - x.length), ?_⟩
  conv_lhs => rw [htake]
  rw [List.take_append_eq_append_take, List.take_of_length_le hlen]

/-- The label cannot match a region whose final character is the trailing
non-word character of a valid left context. -/
theorem no_absorb_of_endOk {L x z : Str} (hLw : ∀ c ∈ L, isWordChar c = true)
    (hpre : L.isPrefixOf (x ++ z) = true) (hlen : x.length ≤ L.length)
    (hxne : x ≠ []) (hend : endOkB x = true) : False := by
  obtain ⟨w, hw⟩ := prefix_absorbs hpre hlen
  obtain ⟨ch, t, hx, hchw⟩ := endOkB_elim hxne hend
  have hch : ch ∈ L := by
    rw [hw, hx]
    exact List.mem_append_left _ (List.mem_append_right _ (by simp))
  rw [hLw ch hch] at hchw
  cases hchw

/-- The first character of the scan of a valid right context is unchanged. -/
theorem headOk_expandGo (L D : Str) {bb : Str} (hbb : headOkB bb = true) :
    headOkB (expandGo L D false bb) = true := by
  rcases bb with _ | ⟨d, w⟩
  · rw [expandGo_nil]
    rfl
  · obtain ⟨w', hw'⟩ := expandGo_head L D d w
    rw [hw', headOkB_cons]
    simpa [headOkB] using hbb

/-- Preservation of whole-word occurrences: substituting a different label
`L` leaves every whole-word occurrence of `M` in place, with valid
boundaries, and keeps a start-of-string occurrence at the start. -/
theorem expandGo_ww_preserve (L D M : Str)
    (hLw : ∀ c ∈ L, isWordChar c = true) (hLne : L ≠ [])
    (hMw : ∀ c ∈ M, isWordChar c = true) (hMne : M ≠ [])
    (hne : L ≠ M) :
    ∀ n (s : Str) (b : Bool) (a bb : Str), s.length ≤ n → s = a ++ M ++ bb →
      endOkB a = true → headOkB bb = true →
      ∃ a2 b2, expandGo L D b s = a2 ++ M ++ b2 ∧ endOkB a2 = true ∧
        headOkB b2 = true ∧ (a = [] ↔ a2 = []) := by
  intro n
  induction n with
  | zero =>
    intro s b a bb hs hocc _ _
    exfalso
    have : s = [] := List.length_eq_zero.mp (Nat.le_zero.mp hs)
    subst this
    have hlen := congrArg List.length hocc
    simp only [List.length_nil, List.length_append] at hlen
    exact hMne (List.length_eq_zero.mp (by omega))
  | succ n ih =>
    intro s b a bb hs hocc ha hbb
    cases s with
    | nil =>
      exfalso
      have hlen := congrArg List.length hocc
      simp only [List.length_nil, List.length_append] at hlen
      exact hMne (List.length_eq_zero.mp (by omega))
    | cons c r =>
      simp only [List.length_cons] at hs
      rcases a with _ | ⟨a0, at'⟩
      · -- occurrence at the very start: the scan copies the word run M
        rcases M with _ | ⟨m0, M'⟩
        · exact absurd rfl hMne
        · have hc : c = m0 ∧ r = M' ++ bb := by
            have := hocc
            simp only [List.nil_append, List.cons_append, List.cons.injEq] at this
            exact ⟨this.1, this.2⟩
          obtain ⟨hc0, hr⟩ := hc
          subst hc0
          have hm0w : isWordChar c = true := hMw c (by simp)
          have hA : ¬(!isWordChar c && L.isPrefixOf r &&
              wordBoundaryB (r.drop L.length)) = true := by
            simp [hm0w]
          have hB : ¬(b && L.isPrefixOf (c :: r) &&
              wordBoundaryB ((c :: r).drop L.length)) = true := by
            intro hBt
            obtain ⟨-, hpre, hbd⟩ := and3_elim hBt
            have hcr : c :: r = (c :: M') ++ bb := by simp [hr]
            rw [hcr] at hpre hbd
            exact hne (word_label_prefix_eq hLw hMw hbb hpre hbd)
          rw [expandGo_step_else hA hB, hr, expandGo_word_run L D M' bb
            (fun ch hch => hMw ch (by simp [hch]))]
          exact ⟨[], expandGo L D false bb, by simp, rfl,
            headOk_expandGo L D hbb, by simp⟩
      · rcases at' with _ | ⟨a1, at''⟩
        · -- left context of exactly one (non-word) character
          have hc : c = a0 ∧ r = M ++ bb := by
            have := hocc
            simp only [List.cons_append, List.cons.injEq, List.nil_append] at this
            exact ⟨this.1, this.2⟩
          obtain ⟨hc0, hr⟩ := hc
          subst hc0
          have hnw : isWordChar c = false := by simpa [endOkB] using ha
          have hA : ¬(!isWordChar c && L.isPrefixOf r &&
              wordBoundaryB (r.drop L.length)) = true := by
            intro hAt
            obtain ⟨-, hpre, hbd⟩ := and3_elim hAt
            rw [hr] at hpre hbd
            exact hne (word_label_prefix_eq hLw hMw hbb hpre hbd)
          have hB : ¬(b && L.isPrefixOf (c :: r) &&
              wordBoundaryB ((c :: r).drop L.length)) = true := by
            intro hBt
            obtain ⟨-, hpre, -⟩ := and3_elim hBt
            have hpre' : L.isPrefixOf ([c] ++ r) = true := by simpa using hpre
            obtain ⟨w, hw⟩ := prefix_absorbs hpre' (by
              have h1 : 0 < L.length := List.length_pos.mpr hLne
              simpa using h1)
            have hcL : c ∈ L := by rw [hw]; simp
            rw [hLw c hcL] at hnw
            cases hnw
          rw [expandGo_step_else hA hB, hr, expandGo_word_run L D M bb hMw]
          refine ⟨[c], expandGo L D false bb, by simp, ?_, headOk_expandGo L D hbb, by simp⟩
          simpa [endOkB] using ha
        · -- left context of at least two characters
          have hc : c = a0 ∧ r = (a1 :: at'') ++ M ++ bb := by
            have := hocc
            simp only [List.cons_append, List.cons.injEq] at this
            exact ⟨this.1, this.2⟩
          obtain ⟨hc0, hr⟩ := hc
          subst hc0
          have hend_at : endOkB (a1 :: at'') = true := by
            rw [← @endOkB_cons c (a1 :: at'') (by simp)]
            exact ha
          by_cases hAt : (!isWordChar c && L.isPrefixOf r &&
              wordBoundaryB (r.drop L.length)) = true
          · obtain ⟨-, hpre, -⟩ := and3_elim hAt
            have hpre' : L.isPrefixOf ((a1 :: at'') ++ (M ++ bb)) = true := by
              rw [hr, List.append_assoc] at hpre
              exact hpre
            rcases Nat.lt_or_ge L.length (a1 :: at'').length with hlt | hge
            · have hd : r.drop L.length =
                  (a1 :: at'').drop L.length ++ (M ++ bb) := by
                rw [hr, List.append_assoc,
                  List.drop_append_of_le_length (le_of_lt hlt)]
              rcases hxd : (a1 :: at'').drop L.length with _ | ⟨d, rest'⟩
              · exfalso
                have h0 := List.drop_eq_nil_iff.mp hxd
                omega
              · have hat1 : (a1 :: at'') = (a1 :: at'').take L.length ++ (d :: rest') := by
                  conv_lhs => rw [← List.take_append_drop L.length (a1 :: at'')]
                  rw [hxd]
                rcases rest' with _ | ⟨e, rest''⟩
                · have hdropr : r.drop L.length = d :: (M ++ bb) := by
                    rw [hd, hxd]
                    simp
                  have hdw : isWordChar d = false := by
                    have h1 : endOkB (a1 :: at'') = true := hend_at
                    rw [hat1, endOkB_concat] at h1
                    simpa using h1
                  rw [expandGo_step_A hAt hdropr,
                    expandGo_word_run L D M bb hMw]
                  refine ⟨(c :: '(' :: (D ++ [')'])) ++ [d], expandGo L D false bb,
                    by simp, ?_, headOk_expandGo L D hbb, by simp⟩
                  rw [endOkB_concat]
                  simp [hdw]
                · have hdropr : r.drop L.length = d :: ((e :: rest'') ++ M ++ bb) := by
                    rw [hd, hxd]
                    simp
                  have hend'' : endOkB (e :: rest'') = true := by
                    have h1 : endOkB (a1 :: at'') = true := hend_at
                    rw [hat1, endOkB_append (by simp), endOkB_cons (by simp)] at h1
                    exact h1
                  have hlen2 : ((e :: rest'') ++ M ++ bb).length ≤ n := by
                    have h1 := congrArg List.length hdropr
                    have h2 : (r.drop L.length).length = r.length - L.length := by simp
                    simp only [h2, List.length_cons] at h1
                    have h3 : ((e :: rest'') ++ M ++ bb).length + 1 ≤ r.length := by omega
                    omega
                  obtain ⟨a2', b2', heq', hend', hhead', hiff'⟩ :=
                    ih ((e :: rest'') ++ M ++ bb) false (e :: rest'') bb hlen2 rfl
                      hend'' hbb
                  have ha2'ne : a2' ≠ [] := by
                    intro h0
                    exact absurd (hiff'.mpr h0) (by simp)
                  rw [expandGo_step_A hAt hdropr, heq']
                  refine ⟨(c :: '(' :: (D ++ [')', d])) ++ a2', b2', by simp, ?_,
                    hhead', by simp [ha2'ne]⟩
                  rw [endOkB_append ha2'ne]
                  exact hend'
            · exact (no_absorb_of_endOk hLw hpre' hge (by simp) hend_at).elim
          · by_cases hBt : (b && L.isPrefixOf (c :: r) &&
                wordBoundaryB ((c :: r).drop L.length)) = true
            · obtain ⟨hb, hpre, -⟩ := and3_elim hBt
              have hocc' : L.isPrefixOf ((c :: a1 :: at'') ++ (M ++ bb)) = true := by
                have h1 : c :: r = (c :: a1 :: at'') ++ (M ++ bb) := by
                  rw [hr]
                  simp
                rw [h1] at hpre
                exact hpre
              rcases Nat.lt_or_ge L.length (c :: a1 :: at'').length with hlt | hge
              · have hd : (c :: r).drop L.length =
                    (c :: a1 :: at'').drop L.length ++ (M ++ bb) := by
                  have h1 : c :: r = (c :: a1 :: at'') ++ (M ++ bb) := by
                    rw [hr]; simp
                  rw [h1, List.drop_append_of_le_length (le_of_lt hlt)]
                rcases hxd : (c :: a1 :: at'').drop L.length with _ | ⟨d, rest'⟩
                · exfalso
                  have h0 := List.drop_eq_nil_iff.mp hxd
                  omega
                · have hat1 : (c :: a1 :: at'') =
                      (c :: a1 :: at'').take L.length ++ (d :: rest') := by
                    conv_lhs => rw [← List.take_append_drop L.length (c :: a1 :: at'')]
                    rw [hxd]
                  subst hb
                  rcases rest' with _ | ⟨e, rest''⟩
                  · have hdropr : (c :: r).drop L.length = d :: (M ++ bb) := by
                      rw [hd, hxd]
                      simp
                    have hdw : isWordChar d = false := by
                      have h1 : endOkB (c :: a1 :: at'') = true := ha
                      rw [hat1, endOkB_concat] at h1
                      simpa using h1
                    rw [expandGo_step_B hAt (by
                        have := and3_elim hBt
                        simp [this.2.1, this.2.2]) hdropr,
                      expandGo_word_run L D M bb hMw]
                    refine ⟨('(' :: (D ++ [')'])) ++ [d], expandGo L D false bb,
                      by simp, ?_, headOk_expandGo L D hbb, by simp⟩
                    rw [endOkB_concat]
                    simp [hdw]
                  · have hdropr : (c :: r).drop L.length =
                        d :: ((e :: rest'') ++ M ++ bb) := by
                      rw [hd, hxd]
                      simp
                    have hend'' : endOkB (e :: rest'') = true := by
                      have h1 : endOkB (c :: a1 :: at'') = true := ha
                      rw [hat1, endOkB_append (by simp), endOkB_cons (by simp)] at h1
                      exact h1
                    have hlen2 : ((e :: rest'') ++ M ++ bb).length ≤ n := by
                      have h1 := congrArg List.length hdropr
                      have h2 : ((c :: r).drop L.length).length =
                          (c :: r).length - L.length := by simp
                      simp only [h2, List.length_cons] at h1
                      have h3 : 0 < L.length := List.length_pos.mpr hLne
                      omega
                    obtain ⟨a2', b2', heq', hend', hhead', hiff'⟩ :=
                      ih ((e :: rest'') ++ M ++ bb) false (e :: rest'') bb hlen2 rfl
                        hend'' hbb
                    have ha2'ne : a2' ≠ [] := by
                      intro h0
                      exact absurd (hiff'.mpr h0) (by simp)
                    rw [expandGo_step_B hAt (by
                        have := and3_elim hBt
                        simp [this.2.1, this.2.2]) hdropr, heq']
                    refine ⟨('(' :: (D ++ [')', d])) ++ a2', b2', by simp, ?_,
                      hhead', by simp [ha2'ne]⟩
                    rw [endOkB_append ha2'ne]
                    exact hend'
              · exact (no_absorb_of_endOk hLw hocc' hge (by simp) ha).elim
            · rw [expandGo_step_else hAt hBt]
              obtain ⟨a2', b2', heq', hend', hhead', hiff'⟩ :=
                ih r false (a1 :: at'') bb (by omega) hr hend_at hbb
              have ha2'ne : a2' ≠ [] := by
                intro h0
                exact absurd (hiff'.mpr h0) (by simp)
              rw [heq']
              refine ⟨c :: a2', b2', by simp, ?_, hhead', by simp [ha2'ne]⟩
              rw [endOkB_cons ha2'ne]
              exact hend'

/-- A word-only, nonempty label is not a prefix of a string starting with a
non-word character. -/
theorem prefix_false_of_nonword_head {L : Str}
    (hLw : ∀ ch ∈ L, isWordChar ch = true) (hLne : L ≠ [])
    {c : Char} (hc : isWordChar c = false) (t : Str) :
    L.isPrefixOf (c :: t) = false := by
  cases hx : L.isPrefixOf (c :: t) with
  | false => rfl
  | true =>
    exfalso
    have hpre' : L.isPrefixOf ([c] ++ t) = true := by simpa using hx
    obtain ⟨w, hw⟩ := prefix_absorbs hpre' (by
      have h1 : 0 < L.length := List.length_pos.mpr hLne
      simpa using h1)
    have hcL : c ∈ L := by rw [hw]; simp
    rw [hLw c hcL] at hc
    cases hc

/-- A prefix at least as long as the first appended block decomposes into
that block followed by a prefix of the rest. -/
theorem prefix_decomp {L x z : Str} (hpre : L.isPrefixOf (x ++ z) = true)
    (hlen : x.length ≤ L.length) :
    ∃ w, L = x ++ w ∧ w.isPrefixOf z = true := by
  have hp := List.isPrefixOf_iff_prefix.mp hpre
  have htake := List.prefix_iff_eq_take.mp hp
  have hwpre := List.take_prefix (L.length - x.length) z
  refine ⟨z.take (L.length - x.length), ?_, List.isPrefixOf_iff_prefix.mpr hwpre⟩
  conv_lhs => rw [htake]
  rw [List.take_append_eq_append_take, List.take_of_length_le hlen]

/-- The label is not a prefix of a digit run followed by a non-word
character: it would have to be all digits or contain that character. -/
theorem prefix_false_of_digit_run {L dd : Str}
    (hLw : ∀ ch ∈ L, isWordChar ch = true)
    (hnd : ¬ ∀ ch ∈ L, ch.isDigit = true)
    (hdd : ∀ ch ∈ dd, ch.isDigit = true)
    {c : Char} (hc : isWordChar c = false) (t : Str) :
    L.isPrefixOf (dd ++ c :: t) = false := by
  cases hx : L.isPrefixOf (dd ++ c :: t) with
  | false => rfl
  | true =>
    exfalso
    rcases Nat.le_total L.length dd.length with hle | hge
    · have hp := List.isPrefixOf_iff_prefix.mp hx
      have htake := List.prefix_iff_eq_take.mp hp
      have hLd : L = dd.take L.length := by
        conv_lhs => rw [htake]
        rw [List.take_append_eq_append_take, Nat.sub_eq_zero_of_le hle]
        simp
      apply hnd
      intro ch hch
      rw [hLd] at hch
      exact hdd ch (List.take_subset _ _ hch)
    · obtain ⟨w, hw, hwp⟩ := prefix_decomp hx hge
      rcases w with _ | ⟨w0, w'⟩
      · apply hnd
        intro ch hch
        rw [hw] at hch
        simp at hch
        exact hdd ch hch
      · have hw0 : w0 = c := by
          have h1 := List.isPrefixOf_iff_prefix.mp hwp
          exact (List.cons_prefix_cons.mp h1).1
        have hmem : w0 ∈ L := by rw [hw]; simp
        have hww := hLw w0 hmem
        rw [hw0, hc] at hww
        cases hww

/-- Sentinel digits are word characters. -/
theorem natDigits_word (i : Nat) : ∀ ch ∈ natDigits i, isWordChar ch = true := by
  intro ch hch
  have hd := natDigits_all_digit i ch hch
  simp [isWordChar, Char.isAlphanum, hd]

/-- Scanning from the second `%` of a sentinel copies the digits and the
closing delimiters verbatim (for a word-only label that is not all
digits). -/
theorem expandGo_sent_tail_scan (L D : Str)
    (hLw : ∀ ch ∈ L, isWordChar ch = true) (hLne : L ≠ [])
    (hnd : ¬ ∀ ch ∈ L, ch.isDigit = true) (i : Nat) (bb : Str) :
    ∃ w, expandGo L D false ('%' :: (natDigits i ++ ('%' :: '%' :: bb))) =
      '%' :: (natDigits i ++ ('%' :: '%' :: w)) := by
  have hpw : isWordChar '%' = false := by decide
  have h1 : expandGo L D false ('%' :: (natDigits i ++ ('%' :: '%' :: bb))) =
      '%' :: expandGo L D false (natDigits i ++ ('%' :: '%' :: bb)) := by
    apply expandGo_step_else
    · intro h
      obtain ⟨-, hp, -⟩ := and3_elim h
      rw [prefix_false_of_digit_run hLw hnd (natDigits_all_digit i) hpw] at hp
      cases hp
    · intro h
      obtain ⟨hb, -, -⟩ := and3_elim h
      cases hb
  have h2 : expandGo L D false (natDigits i ++ ('%' :: '%' :: bb)) =
      natDigits i ++ expandGo L D false ('%' :: '%' :: bb) :=
    expandGo_word_run L D (natDigits i) _ (natDigits_word i)
  have h3 : expandGo L D false ('%' :: '%' :: bb) =
      '%' :: expandGo L D false ('%' :: bb) := by
    apply expandGo_step_else
    · intro h
      obtain ⟨-, hp, -⟩ := and3_elim h
      rw [prefix_false_of_nonword_head hLw hLne hpw] at hp
      cases hp
    · intro h
      obtain ⟨hb, -, -⟩ := and3_elim h
      cases hb
  obtain ⟨w, h4⟩ := expandGo_head L D '%' bb
  exact ⟨w, by rw [h1, h2, h3, h4]⟩

/-- The scan copies a sentinel standing at the scan position verbatim. -/
theorem expandGo_sentinel_scan (L D : Str)
    (hLw : ∀ ch ∈ L, isWordChar ch = true) (hLne : L ≠ [])
    (hnd : ¬ ∀ ch ∈ L, ch.isDigit = true) (i : Nat) (bb : Str) (b : Bool) :
    ∃ w, expandGo L D b (sentinel i ++ bb) = sentinel i ++ w := by
  have hpw : isWordChar '%' = false := by decide
  have hshape : sentinel i ++ bb =
      '%' :: ('%' :: (natDigits i ++ ('%' :: '%' :: bb))) := by
    simp [sentinel]
  have h0 : expandGo L D b (sentinel i ++ bb) =
      '%' :: expandGo L D false ('%' :: (natDigits i ++ ('%' :: '%' :: bb))) := by
    rw [hshape]
    apply expandGo_step_else
    · intro h
      obtain ⟨-, hp, -⟩ := and3_elim h
      rw [prefix_false_of_nonword_head hLw hLne hpw] at hp
      cases hp
    · intro h
      obtain ⟨-, hp, -⟩ := and3_elim h
      rw [prefix_false_of_nonword_head hLw hLne hpw] at hp
      cases hp
  obtain ⟨w, h1⟩ := expandGo_sent_tail_scan L D hLw hLne hnd i bb
  refine ⟨w, ?_⟩
  rw [h0, h1]
  simp [sentinel]

/-- Substituting a label that is word-only, nonempty and not all digits
leaves every sentinel occurrence of the scanned string in place. -/
theorem expandGo_sentinel_preserve (L D : Str)
    (hLw : ∀ ch ∈ L, isWordChar ch = true) (hLne : L ≠ [])
    (hnd : ¬ ∀ ch ∈ L, ch.isDigit = true) :
    ∀ n (s : Str) (b : Bool) (i : Nat) (a bb : Str), s.length ≤ n →
      s = a ++ sentinel i ++ bb →
      ∃ a2 b2, expandGo L D b s = a2 ++ sentinel i ++ b2 := by
  have hpw : isWordChar '%' = false := by decide
  intro n
  induction n with
  | zero =>
    intro s b i a bb hs hocc
    exfalso
    have h0 : s = [] := List.length_eq_zero.mp (Nat.le_zero.mp hs)
    subst h0
    have hlen := congrArg List.length hocc
    simp [sentinel] at hlen
    omega
  | succ n ih =>
    intro s b i a bb hs hocc
    rcases a with _ | ⟨a0, a'⟩
    · obtain ⟨w, hw⟩ := expandGo_sentinel_scan L D hLw hLne hnd i bb b
      refine ⟨[], w, ?_⟩
      rw [hocc]
      simpa using hw
    · subst hocc
      have hcons : (a0 :: a') ++ sentinel i ++ bb =
          a0 :: (a' ++ sentinel i ++ bb) := by simp
      rw [hcons] at hs ⊢
      simp only [List.length_cons] at hs
      by_cases hA : (!isWordChar a0 && L.isPrefixOf (a' ++ sentinel i ++ bb) &&
          wordBoundaryB ((a' ++ sentinel i ++ bb).drop L.length)) = true
      · obtain ⟨-, hpre, -⟩ := and3_elim hA
        rcases Nat.lt_or_ge L.length a'.length with hlt | hge
        · rcases hxd : a'.drop L.length with _ | ⟨d, rest⟩
          · exfalso
            have h0 := List.drop_eq_nil_iff.mp hxd
            omega
          · have hdropr : (a' ++ sentinel i ++ bb).drop L.length =
                d :: (rest ++ sentinel i ++ bb) := by
              rw [List.append_assoc,
                List.drop_append_of_le_length (le_of_lt hlt), hxd]
              simp
            have hlen2 : (rest ++ sentinel i ++ bb).length ≤ n := by
              have h1 := congrArg List.length hdropr
              simp only [List.length_drop, List.length_cons] at h1
              simp only [List.length_append] at h1 hs ⊢
              omega
            obtain ⟨a2', b2', heq⟩ :=
              ih (rest ++ sentinel i ++ bb) false i rest bb hlen2 rfl
            rw [expandGo_step_A hA hdropr, heq]
            exact ⟨a0 :: '(' :: (D ++ (')' :: d :: a2')), b2', by simp⟩
        · obtain ⟨w, hw, hwp⟩ := prefix_decomp (by
            rw [List.append_assoc] at hpre
            exact hpre) hge
          rcases w with _ | ⟨w0, w'⟩
          · have hLa : L = a' := by simpa using hw
            have hdropr : (a' ++ sentinel i ++ bb).drop L.length =
                '%' :: ('%' :: (natDigits i ++ ('%' :: '%' :: bb))) := by
              rw [List.append_assoc, hLa,
                List.drop_append_of_le_length (le_refl a'.length)]
              simp [sentinel]
            rw [expandGo_step_A hA hdropr]
            obtain ⟨w2, hw2⟩ := expandGo_sent_tail_scan L D hLw hLne hnd i bb
            rw [hw2]
            refine ⟨a0 :: '(' :: (D ++ [')']), w2, ?_⟩
            simp [sentinel]
          · exfalso
            have hw0 : w0 = '%' := by
              have h1 := List.isPrefixOf_iff_prefix.mp hwp
              have h2 : sentinel i ++ bb =
                  '%' :: ('%' :: (natDigits i ++ ('%' :: '%' :: bb))) := by
                simp [sentinel]
              rw [h2] at h1
              exact (List.cons_prefix_cons.mp h1).1
            have hmem : w0 ∈ L := by rw [hw]; simp
            have hww := hLw w0 hmem
            rw [hw0, hpw] at hww
            cases hww
      · by_cases hB : (b && L.isPrefixOf (a0 :: (a' ++ sentinel i ++ bb)) &&
            wordBoundaryB ((a0 :: (a' ++ sentinel i ++ bb)).drop L.length)) = true
        · obtain ⟨hb, hpre, hbd⟩ := and3_elim hB
          subst hb
          have hpre' : L.isPrefixOf ((a0 :: a') ++ (sentinel i ++ bb)) = true := by
            simpa using hpre
          rcases Nat.lt_or_ge L.length (a0 :: a').length with hlt | hge
          · rcases hxd : (a0 :: a').drop L.length with _ | ⟨d, rest⟩
            · exfalso
              have h0 := List.drop_eq_nil_iff.mp hxd
              simp only [List.length_cons] at h0 hlt
              omega
            · have hdropr : (a0 :: (a' ++ sentinel i ++ bb)).drop L.length =
                  d :: (rest ++ sentinel i ++ bb) := by
                have h1 : a0 :: (a' ++ sentinel i ++ bb) =
                    (a0 :: a') ++ (sentinel i ++ bb) := by simp
                rw [h1, List.drop_append_of_le_length (le_of_lt hlt), hxd]
                simp
              have hlen2 : (rest ++ sentinel i ++ bb).length ≤ n := by
                have h1 := congrArg List.length hdropr
                simp only [List.length_drop, List.length_cons] at h1
                simp only [List.length_append] at h1 hs ⊢
                omega
              obtain ⟨a2', b2', heq⟩ :=
                ih (rest ++ sentinel i ++ bb) false i rest bb hlen2 rfl
              rw [expandGo_step_B hA (by rw [hpre, hbd]; rfl) hdropr, heq]
              exact ⟨'(' :: (D ++ (')' :: d :: a2')), b2', by simp⟩
          · obtain ⟨w, hw, hwp⟩ := prefix_decomp hpre' hge
            rcases w with _ | ⟨w0, w'⟩
            · have hLa : L = a0 :: a' := by simpa using hw
              have hdropr : (a0 :: (a' ++ sentinel i ++ bb)).drop L.length =
                  '%' :: ('%' :: (natDigits i ++ ('%' :: '%' :: bb))) := by
                have h1 : a0 :: (a' ++ sentinel i ++ bb) =
                    (a0 :: a') ++ (sentinel i ++ bb) := by simp
                rw [h1, hLa,
                  List.drop_append_of_le_length (le_refl (a0 :: a').length)]
                simp [sentinel]
              rw [expandGo_step_B hA (by rw [hpre, hbd]; rfl) hdropr]
              obtain ⟨w2, hw2⟩ := expandGo_sent_tail_scan L D hLw hLne hnd i bb
              rw [hw2]
              refine ⟨'(' :: (D ++ [')']), w2, ?_⟩
              simp [sentinel]
            · exfalso
              have hw0 : w0 = '%' := by
                have h1 := List.isPrefixOf_iff_prefix.mp hwp
                have h2 : sentinel i ++ bb =
                    '%' :: ('%' :: (natDigits i ++ ('%' :: '%' :: bb))) := by
                  simp [sentinel]
                rw [h2] at h1
                exact (List.cons_prefix_cons.mp h1).1
              have hmem : w0 ∈ L := by rw [hw]; simp
              have hww := hLw w0 hmem
              rw [hw0, hpw] at hww
              cases hww
        · rw [expandGo_step_else hA hB]
          obtain ⟨a2', b2', heq⟩ :=
            ih (a' ++ sentinel i ++ bb) false i a' bb (by omega) rfl
          rw [heq]
          exact ⟨a0 :: a2', b2', by simp⟩

/-- One tag substitution (source line 658) preserves every sentinel. -/
theorem expandSub_sentinel {L D : Str}
    (hLw : ∀ ch ∈ L, isWordChar ch = true) (hLne : L ≠ [])
    (hnd : ¬ ∀ ch ∈ L, ch.isDigit = true) (i : Nat) {s : Str}
    (h : ∃ a bb, s = a ++ sentinel i ++ bb) :
    ∃ a bb, expandSub L D s = a ++ sentinel i ++ bb := by
  obtain ⟨a, bb, hocc⟩ := h
  exact expandGo_sentinel_preserve L D hLw hLne hnd s.length s true i a bb
    le_rfl hocc

/-- One full pass over the tag list preserves every sentinel. -/
theorem expandPass_sentinel (i : Nat) :
    ∀ tags : List (Str × Str),
      (∀ p ∈ tags, (∀ ch ∈ p.1, isWordChar ch = true) ∧ p.1 ≠ [] ∧
        ¬ ∀ ch ∈ p.1, ch.isDigit = true) →
      ∀ s : Str, (∃ a bb, s = a ++ sentinel i ++ bb) →
        ∃ a bb, expandPass tags s = a ++ sentinel i ++ bb := by
  intro tags
  induction tags with
  | nil =>
    intro _ s h
    simpa [expandPass] using h
  | cons t ts ih =>
    intro htags s h
    have h1 : expandPass (t :: ts) s = expandPass ts (expandSub t.1 t.2 s) := rfl
    rw [h1]
    obtain ⟨h2, h3, h4⟩ := htags t (by simp)
    exact ih (fun p hp => htags p (by simp [hp])) _ (expandSub_sentinel h2 h3 h4 i h)

/-- The expansion loop preserves every sentinel through all its passes. -/
theorem expandLoopAux_sentinel (i : Nat) (tags : List (Str × Str))
    (htags : ∀ p ∈ tags, (∀ ch ∈ p.1, isWordChar ch = true) ∧ p.1 ≠ [] ∧
      ¬ ∀ ch ∈ p.1, ch.isDigit = true) :
    ∀ gas prev s depth, (∃ a bb, s = a ++ sentinel i ++ bb) →
      ∃ a bb, (expandLoopAux tags gas prev s depth).1 = a ++ sentinel i ++ bb := by
  intro gas
  induction gas with
  | zero =>
    intro prev s depth h
    unfold expandLoopAux
    by_cases hsp : s = prev
    · simpa [hsp] using h
    · by_cases hd : MAXIMUM_DEPTH ≤ depth + 1
      · simpa [hsp, hd] using expandPass_sentinel i tags htags s h
      · simpa [hsp, hd] using expandPass_sentinel i tags htags s h
  | succ g ih =>
    intro prev s depth h
    unfold expandLoopAux
    by_cases hsp : s = prev
    · simpa [hsp] using h
    · by_cases hd : MAXIMUM_DEPTH ≤ depth + 1
      · simpa [hsp, hd] using expandPass_sentinel i tags htags s h
      · simpa [hsp, hd] using ih s (expandPass tags s) (depth + 1)
          (expandPass_sentinel i tags htags s h)

/-- C5 (amended): if every compound-tag label is a nonempty word-charset
string containing at least one non-digit character, then the Macro Expander
never alters a placeholder sentinel `%%<index>%%` present in its input: the
sentinel still occurs, between a (possibly rewritten) left and right
context, in the string the expansion stage returns. -/
theorem C5_amended (tags : List (Str × Str))
    (htags : ∀ p ∈ tags, (∀ ch ∈ p.1, isWordChar ch = true) ∧ p.1 ≠ [] ∧
      ¬ ∀ ch ∈ p.1, ch.isDigit = true)
    (i : Nat) (q a bb : Str) (hq : q = a ++ sentinel i ++ bb) :
    ∃ a2 b2, (expandQuery tags q).1 = a2 ++ sentinel i ++ b2 :=
  expandLoopAux_sentinel i tags htags (MAXIMUM_DEPTH - 0) [] q 0 ⟨a, bb, hq⟩

/-- Witness for C5: with the compound tag `ab → x`, the sentinel `%%1%%`
survives the expansion stage. -/
theorem C5_witness :
    ∃ a2 b2, (expandQuery [([('a' : Char), 'b'], [('x' : Char)])]
      (sentinel 1)).1 = a2 ++ sentinel 1 ++ b2 :=
  C5_amended _ (by decide) 1 (sentinel 1) [] [] (by simp)

/-- C5 counterexample: with the label-charset-legal compound tag `1 → x`,
the expander rewrites the digits inside the sentinel `%%1%%` itself, so the
output of the expansion stage no longer contains that sentinel. -/
theorem C5_counterexample :
    occursInB (sentinel 1) (sentinel 1) = true ∧
    (expandQuery [([('1' : Char)], [('x' : Char)])] (sentinel 1)).1 =
      ['%', '%', '(', 'x', ')', '%', '%'] ∧
    occursInB (sentinel 1)
      ((expandQuery [([('1' : Char)], [('x' : Char)])] (sentinel 1)).1) =
        false := by
  decide

/-- A whole-word occurrence inside a substituted definition is a whole-word
occurrence of the fire output. -/
theorem ww_of_fire_infix {Dt ℓ2 : Str} (x y : Str) (h : WW ℓ2 Dt) :
    WW ℓ2 (x ++ '(' :: (Dt ++ ')' :: y)) := by
  obtain ⟨aD, bD, hD, haD, hbD⟩ := h
  refine ⟨x ++ '(' :: aD, bD ++ ')' :: y, ?_, ?_, ?_⟩
  · rw [hD]
    simp
  · rcases aD with _ | ⟨d, w⟩
    · rw [endOkB_concat]
      decide
    · rw [endOkB_append (by simp), endOkB_cons (by simp)]
      exact haD
  · rcases bD with _ | ⟨d, w⟩
    · simp only [List.nil_append]
      rw [headOkB_cons]
      decide
    · rw [List.cons_append, headOkB_cons]
      rw [headOkB_cons] at hbD
      exact hbD

/-- One substitution step keeps some cycle label present as a whole word:
a different label leaves the occurrence alone, and substituting the label
itself plants its definition, which carries a cycle label. -/
theorem expandSub_cycww {C : List Str}
    (hCw : ∀ ℓ ∈ C, (∀ c ∈ ℓ, isWordChar c = true) ∧ ℓ ≠ [])
    {L Dt s : Str} (hLw : ∀ c ∈ L, isWordChar c = true) (hLne : L ≠ [])
    (hdef : L ∈ C → ∃ ℓ2 ∈ C, WW ℓ2 Dt)
    (h : ∃ ℓ ∈ C, WW ℓ s) :
    ∃ ℓ ∈ C, WW ℓ (expandSub L Dt s) := by
  obtain ⟨ℓ, hmem, hWW⟩ := h
  obtain ⟨a, bb, hocc, ha, hbb⟩ := hWW
  by_cases hLeq : L = ℓ
  · subst hLeq
    obtain ⟨ℓ2, hmem2, hWW2⟩ := hdef hmem
    obtain ⟨-, x, y, hout⟩ := expandGo_fire L Dt hLw hLne s.length s true a bb
      le_rfl hocc ha hbb (fun _ => rfl)
    refine ⟨ℓ2, hmem2, ?_⟩
    show WW ℓ2 (expandGo L Dt true s)
    rw [hout]
    exact ww_of_fire_infix x y hWW2
  · obtain ⟨a2, b2, hout, hend, hhead, -⟩ := expandGo_ww_preserve L Dt ℓ hLw hLne
      (hCw ℓ hmem).1 (hCw ℓ hmem).2 hLeq s.length s true a bb le_rfl hocc ha hbb
    exact ⟨ℓ, hmem, a2, b2, hout, hend, hhead⟩

/-- A whole pass keeps some cycle label present as a whole word. -/
theorem expandPass_cycww {C : List Str}
    (hCw : ∀ ℓ ∈ C, (∀ c ∈ ℓ, isWordChar c = true) ∧ ℓ ≠ []) :
    ∀ tags : List (Str × Str),
      (∀ p ∈ tags, (∀ c ∈ p.1, isWordChar c = true) ∧ p.1 ≠ []) →
      (∀ p ∈ tags, p.1 ∈ C → ∃ ℓ2 ∈ C, WW ℓ2 p.2) →
      ∀ s : Str, (∃ ℓ ∈ C, WW ℓ s) → ∃ ℓ ∈ C, WW ℓ (expandPass tags s) := by
  intro tags
  induction tags with
  | nil =>
    intro _ _ s h
    simpa [expandPass] using h
  | cons t ts ih =>
    intro htags hclosed s h
    have h1 : expandPass (t :: ts) s = expandPass ts (expandSub t.1 t.2 s) := rfl
    rw [h1]
    exact ih (fun p hp => htags p (by simp [hp]))
      (fun p hp => hclosed p (by simp [hp])) _
      (expandSub_cycww hCw (htags t (by simp)).1 (htags t (by simp)).2
        (hclosed t (by simp)) h)

/-- A pass never loses an opening parenthesis. -/
theorem expandPass_mono :
    ∀ tags : List (Str × Str), (∀ p ∈ tags, ∀ c ∈ p.1, isWordChar c = true) →
      ∀ s : Str, s.count '(' ≤ (expandPass tags s).count '(' := by
  intro tags
  induction tags with
  | nil =>
    intro _ s
    simp [expandPass]
  | cons t ts ih =>
    intro htags s
    have h1 : expandPass (t :: ts) s = expandPass ts (expandSub t.1 t.2 s) := rfl
    rw [h1]
    exact le_trans
      (expandGo_count_paren t.1 t.2 (htags t (by simp)) s.length s le_rfl true)
      (ih (fun p hp => htags p (by simp [hp])) _)

/-- If some listed tag's label occurs as a whole word, the pass strictly
increases the count of opening parentheses — the pass changes the string. -/
theorem expandPass_strict {ℓ Dl : Str} :
    ∀ tags : List (Str × Str),
      (∀ p ∈ tags, (∀ c ∈ p.1, isWordChar c = true) ∧ p.1 ≠ []) →
      (ℓ, Dl) ∈ tags → ∀ s : Str, WW ℓ s →
      s.count '(' < (expandPass tags s).count '(' := by
  intro tags
  induction tags with
  | nil =>
    intro _ hmem
    cases hmem
  | cons t ts ih =>
    intro htags hmem s hWW
    obtain ⟨a, bb, hocc, ha, hbb⟩ := hWW
    have h1 : expandPass (t :: ts) s = expandPass ts (expandSub t.1 t.2 s) := rfl
    rw [h1]
    have hw := (htags t (by simp)).1
    have hne := (htags t (by simp)).2
    by_cases hteq : t.1 = ℓ
    · have hfire := expandGo_fire t.1 t.2 hw hne s.length s true a bb le_rfl
        (by rw [hteq]; exact hocc) ha hbb (fun _ => rfl)
      exact lt_of_lt_of_le hfire.1
        (expandPass_mono ts (fun p hp => (htags p (by simp [hp])).1) _)
    · have hmem' : (ℓ, Dl) ∈ ts := by
        rcases List.mem_cons.mp hmem with heq | h2
        · exfalso
          apply hteq
          rw [← heq]
        · exact h2
      obtain ⟨a2, b2, hout, hend, hhead, -⟩ := expandGo_ww_preserve t.1 t.2 ℓ hw
        hne (htags (ℓ, Dl) hmem).1 (htags (ℓ, Dl) hmem).2 hteq s.length s true
        a bb le_rfl hocc ha hbb
      have hle : s.count '(' ≤ (expandSub t.1 t.2 s).count '(' :=
        expandGo_count_paren t.1 t.2 hw s.length s le_rfl true
      have hlt := ih (fun p hp => htags p (by simp [hp])) hmem'
        (expandSub t.1 t.2 s) ⟨a2, b2, hout, hend, hhead⟩
      omega

/-- C2: for a compound-tag set containing a reference cycle — a set `C` of
labels, each the label of a listed tag, such that every listed tag labelled
from `C` mentions some label of `C` as a whole word in its definition — any
query mentioning a label of `C` as a whole word makes the expansion stage
report the max-recursion error with the pass counter at exactly
`MAXIMUM_DEPTH` (20): never fewer passes, and, the loop being a total
function of its depth budget, never running forever. -/
theorem C2_cycle_max_recursion (tags : List (Str × Str)) (C : List Str)
    (q : Str)
    (htags : ∀ p ∈ tags, (∀ c ∈ p.1, isWordChar c = true) ∧ p.1 ≠ [])
    (hclosed : ∀ p ∈ tags, p.1 ∈ C → ∃ ℓ2 ∈ C, WW ℓ2 p.2)
    (hall : ∀ ℓ ∈ C, ∃ Dl, (ℓ, Dl) ∈ tags)
    (hq : ∃ ℓ ∈ C, WW ℓ q) :
    (expandQuery tags q).2.1 = true ∧
      (expandQuery tags q).2.2 = MAXIMUM_DEPTH := by
  have hCw : ∀ ℓ ∈ C, (∀ c ∈ ℓ, isWordChar c = true) ∧ ℓ ≠ [] := by
    intro ℓ hmem
    obtain ⟨Dl, hD⟩ := hall ℓ hmem
    exact htags (ℓ, Dl) hD
  have hinv : ∀ k, ∃ ℓ ∈ C, WW ℓ ((expandPass tags)^[k] q) := by
    intro k
    induction k with
    | zero => simpa using hq
    | succ k ihk =>
      rw [Function.iterate_succ_apply']
      exact expandPass_cycww hCw tags htags hclosed _ ihk
  have hchange : ∀ k, (expandPass tags)^[k + 1] q ≠ (expandPass tags)^[k] q := by
    intro k
    obtain ⟨ℓ, hmem, hWW⟩ := hinv k
    obtain ⟨Dl, hD⟩ := hall ℓ hmem
    have hlt := expandPass_strict tags htags hD ((expandPass tags)^[k] q) hWW
    intro heq
    rw [Function.iterate_succ_apply'] at heq
    rw [heq] at hlt
    exact lt_irrefl _ hlt
  have hqne : q ≠ [] := by
    obtain ⟨ℓ, hmem, hWW⟩ := hq
    obtain ⟨a, bb, hocc, -, -⟩ := hWW
    intro h0
    rw [h0] at hocc
    have hlen := congrArg List.length hocc
    simp only [List.length_nil, List.length_append] at hlen
    have hl0 : ℓ.length = 0 := by omega
    exact (hCw ℓ hmem).2 (List.length_eq_zero.mp hl0)
  have h1 := expandLoopAux_error_iff tags MAXIMUM_DEPTH [] q 0 (by omega)
    (by simp [MAXIMUM_DEPTH])
  have herr : (expandLoopAux tags MAXIMUM_DEPTH [] q 0).2.1 = true :=
    h1.mpr ⟨hqne, fun k _ => hchange k⟩
  have hcnt := expandLoopAux_error_count tags MAXIMUM_DEPTH [] q 0 (by omega)
    (by simp [MAXIMUM_DEPTH]) herr
  constructor
  · simpa [expandQuery, expandLoop] using herr
  · simpa [expandQuery, expandLoop] using hcnt

/-- Witness for C2: the directly self-referential tag `loop → loop AND cat`
and the query `loop`. -/
theorem C2_witness :
    (expandQuery [("loop".toList, "loop AND cat".toList)] "loop".toList).2.1 =
      true ∧
    (expandQuery [("loop".toList, "loop AND cat".toList)] "loop".toList).2.2 =
      MAXIMUM_DEPTH :=
  C2_cycle_max_recursion _ ["loop".toList] _ (by decide)
    (by
      intro p hp hmem
      simp only [List.mem_singleton] at hp
      subst hp
      exact ⟨"loop".toList, by simp, [], " AND cat".toList, by decide, rfl,
        by decide⟩)
    (by
      intro ℓ hmem
      simp only [List.mem_singleton] at hmem
      subst hmem
      exact ⟨"loop AND cat".toList, by simp⟩)
    ⟨"loop".toList, by simp, [], [], by simp, rfl, rfl⟩

/-! ### String toolbox for the protection-loop analysis (C3, C4) -/

/-- `takeWhile` over an append stops inside the left part when that part has
a failing character. -/
theorem tw_append_of_drop_ne {p : Char → Bool} {A : Str}
    (h : A.dropWhile p ≠ []) (B : Str) :
    (A ++ B).takeWhile p = A.takeWhile p := by
  rw [List.takeWhile_append, if_neg]
  intro hlen
  apply h
  have h1 : A.takeWhile p = A :=
    (List.takeWhile_prefix p).eq_of_length hlen
  have h2 := List.takeWhile_append_dropWhile p A
  rw [h1, List.append_right_eq_self] at h2
  exact h2

/-- `dropWhile` over an append stops inside the left part when that part has
a failing character. -/
theorem dw_append_of_drop_ne {p : Char → Bool} {A : Str}
    (h : A.dropWhile p ≠ []) (B : Str) :
    (A ++ B).dropWhile p = A.dropWhile p ++ B := by
  rw [List.dropWhile_append, if_neg]
  simpa [List.isEmpty_iff] using h

/-- Membership form of the no-newline test. -/
theorem noNl_mem {s : Str} (h : noNlB s = true) {c : Char} (hc : c ∈ s) :
    c ≠ '\n' := by
  simp only [noNlB, List.all_eq_true] at h
  simpa using h c hc

theorem noNl_intro {s : Str} (h : ∀ c ∈ s, c ≠ '\n') : noNlB s = true := by
  simp only [noNlB, List.all_eq_true]
  intro c hc
  simpa using h c hc

/-- For newline-free value tails, the closing condition of the pattern
reduces to the delimiter test and the even-backslash-run test. -/
theorem validCloseB_noNl {d : Char} {r : Str} (h : ∀ c ∈ r, c ≠ '\n')
    (m : Nat) :
    validCloseB d r m =
      ((r.get? m == some d) && (bsRun (r.take m).reverse % 2 == 0)) := by
  simp only [validCloseB]
  have hall : (((r.take m).take (m - bsRun (r.take m).reverse - 1)).all
      (fun c => c != '\n')) = true := by
    rw [List.all_eq_true]
    intro c hc
    have hcr : c ∈ r := List.take_subset _ _ (List.take_subset _ _ hc)
    simpa using h c hcr
  rw [hall]
  simp

theorem bsRun_nil : bsRun [] = 0 := rfl

theorem bsRun_cons (c : Char) (s : Str) :
    bsRun (c :: s) = if c == '\\' then bsRun s + 1 else 0 := by
  simp only [bsRun, List.takeWhile_cons]
  by_cases hc : (c == '\\') = true
  · simp [hc]
  · simp [hc]

/-- A backslash run is cut off by any non-backslash character: the text
beyond it is irrelevant. -/
theorem bsRun_append_cons_ne {c : Char} (hc : (c == '\\') = false)
    (X Y : Str) : bsRun (X ++ c :: Y) = bsRun X := by
  induction X with
  | nil =>
    rw [List.nil_append, bsRun_cons, bsRun_nil, if_neg]
    simp [hc]
  | cons x X' ih =>
    rw [List.cons_append, bsRun_cons, bsRun_cons, ih]

/-- Every character of a sentinel is a percent sign or a digit. -/
theorem sentinel_chars {k : Nat} {c : Char} (hc : c ∈ sentinel k) :
    c = '%' ∨ c.isDigit = true := by
  simp only [sentinel] at hc
  rcases List.mem_cons.mp hc with h | hc2
  · exact Or.inl h
  rcases List.mem_cons.mp hc2 with h | hc3
  · exact Or.inl h
  rcases List.mem_append.mp hc3 with h | h4
  · exact Or.inr (natDigits_all_digit k c h)
  rcases List.mem_cons.mp h4 with h | h5
  · exact Or.inl h
  rcases List.mem_cons.mp h5 with h | h6
  · exact Or.inl h
  cases h6

theorem sentinel_noNl {k : Nat} : ∀ c ∈ sentinel k, c ≠ '\n' := by
  intro c hc he
  rcases sentinel_chars hc with h | h
  · rw [he] at h
    exact absurd h (by decide)
  · rw [he] at h
    exact absurd h (by decide)

theorem sentinel_reverse (k : Nat) :
    (sentinel k).reverse =
      '%' :: ('%' :: ((natDigits k).reverse ++ ['%', '%'])) := by
  simp [sentinel]

/-- No sentinel character is a value delimiter. -/
theorem sentinel_char_ne_delim {k : Nat} {c d : Char} (hc : c ∈ sentinel k)
    (hd : isDelimChar d = true) : (c == d) = false := by
  simp only [isDelimChar, Bool.or_eq_true, beq_iff_eq] at hd
  rw [beq_eq_false_iff_ne]
  intro he
  subst he
  rcases sentinel_chars hc with h | h
  · rcases hd with h2 | h2 <;> rw [h2] at h <;> exact absurd h (by decide)
  · rcases hd with h2 | h2 <;> rw [h2] at h <;> exact absurd h (by decide)

/-- `replaceFirst` walks past a character that does not begin a match. -/
theorem replaceFirst_cons_no {pat rep : Str} {c : Char} {r : Str}
    (h : pat.isPrefixOf (c :: r) = false) :
    replaceFirst pat rep (c :: r) = c :: replaceFirst pat rep r := by
  simp only [replaceFirst, h, Bool.and_false]
  rw [if_neg (by simp)]

/-- `replaceFirst` leaves an occurrence-free left part untouched. -/
theorem replaceFirst_append_no_hit {pat rep : Str} :
    ∀ {P : Str} (X : Str),
      (∀ j < P.length, pat.isPrefixOf ((P ++ X).drop j) = false) →
      replaceFirst pat rep (P ++ X) = P ++ replaceFirst pat rep X := by
  intro P
  induction P with
  | nil =>
    intro X _
    simp
  | cons c P' ih =>
    intro X h
    have h0 := h 0 (by simp)
    rw [List.drop_zero, List.cons_append] at h0
    rw [List.cons_append, replaceFirst_cons_no h0, ih X ?_]
    · rfl
    · intro j hj
      have := h (j + 1) (by simpa using Nat.succ_lt_succ hj)
      rw [List.cons_append] at this
      simpa using this

/-- `replaceFirst` fires at an occurrence standing at the front. -/
theorem replaceFirst_hit {pat rep T : Str} (hne : pat ≠ []) :
    replaceFirst pat rep (pat ++ T) = rep ++ T := by
  cases pat with
  | nil => exact absurd rfl hne
  | cons pc pr =>
    rw [List.cons_append]
    simp only [replaceFirst]
    rw [if_pos]
    · rw [← List.cons_append, List.drop_left]
    · refine (by simp : ((pc :: pr).isEmpty = false)) ▸ ?_
      simp only [Bool.not_false, Bool.true_and]
      exact List.isPrefixOf_iff_prefix.mpr ⟨T, by simp⟩

/-- `replaceFirst` replaces exactly the occurrence at position `|P|` when no
occurrence starts earlier. -/
theorem replaceFirst_at {pat rep P T : Str} (hne : pat ≠ [])
    (h : ∀ j < P.length, pat.isPrefixOf ((P ++ pat ++ T).drop j) = false) :
    replaceFirst pat rep (P ++ pat ++ T) = P ++ rep ++ T := by
  rw [List.append_assoc,
    replaceFirst_append_no_hit (pat ++ T) (by
      intro j hj
      have := h j hj
      rwa [List.append_assoc] at this),
    replaceFirst_hit hne]
  simp

/-- Characterisation of `find?` over an initial segment of the naturals. -/
theorem range_find_some {f : Nat → Bool} {n m : Nat} :
    (List.range n).find? f = some m ↔
      m < n ∧ f m = true ∧ ∀ i < m, f i = false := by
  constructor
  · intro h
    obtain ⟨hfm, as, bs, hsplit, hprior⟩ := List.find?_eq_some.mp h
    have hm : m < n := by
      have h9 : m ∈ List.range n := by
        rw [hsplit]
        simp
      simpa using h9
    have hasn : as.length < n := by
      have h9 := congrArg List.length hsplit
      simp only [List.length_range, List.length_append, List.length_cons] at h9
      omega
    have hasm : as.length = m := by
      have h1 : (List.range n)[as.length]? = some as.length :=
        List.getElem?_range hasn
      have h2 : (List.range n)[as.length]? = some m := by
        rw [hsplit, List.getElem?_append_right (le_refl as.length)]
        simp
      rw [h1] at h2
      exact Option.some_inj.mp h2
    refine ⟨hm, hfm, ?_⟩
    intro i hi
    have htake : as = (List.range n).take as.length := by
      conv_rhs => rw [hsplit]
      rw [List.take_left]
    have h1 : as[i]? = some i := by
      rw [htake, List.getElem?_take_of_lt (by omega)]
      exact List.getElem?_range (by omega)
    have hias : i ∈ as := by
      obtain ⟨hlt2, he⟩ := List.getElem?_eq_some_iff.mp h1
      exact he ▸ List.getElem_mem hlt2
    have h3 := hprior i hias
    simpa using h3
  · rintro ⟨hm, hfm, hmin⟩
    rcases h : (List.range n).find? f with _ | m'
    · rw [List.find?_eq_none] at h
      exact absurd hfm (by simpa using h m (by simpa using hm))
    · obtain ⟨hfm', as, bs, hsplit, hprior⟩ := List.find?_eq_some.mp h
      have hasn : as.length < n := by
        have h9 := congrArg List.length hsplit
        simp only [List.length_range, List.length_append, List.length_cons] at h9
        omega
      have hasm : as.length = m' := by
        have h1 : (List.range n)[as.length]? = some as.length :=
          List.getElem?_range hasn
        have h2 : (List.range n)[as.length]? = some m' := by
          rw [hsplit, List.getElem?_append_right (le_refl as.length)]
          simp
        rw [h1] at h2
        exact Option.some_inj.mp h2
      rcases Nat.lt_trichotomy m m' with hlt | heq | hgt
      · exfalso
        have htake : as = (List.range n).take as.length := by
          conv_rhs => rw [hsplit]
          rw [List.take_left]
        have h1 : as[m]? = some m := by
          rw [htake, List.getElem?_take_of_lt (by omega)]
          exact List.getElem?_range (by omega)
        have hias : m ∈ as := by
          obtain ⟨hlt2, he⟩ := List.getElem?_eq_some_iff.mp h1
          exact he ▸ List.getElem_mem hlt2
        have h3 := hprior m hias
        rw [hfm] at h3
        exact absurd h3 (by simp)
      · rw [heq]
      · exact absurd hfm' (by simp [hmin m' hgt])

/-- The closing test only examines the prefix up to `m` and the character at
`m`. -/
theorem validCloseB_congr {d : Char} {R R2 : Str} {j : Nat}
    (h1 : R.get? j = R2.get? j) (h2 : R.take j = R2.take j) :
    validCloseB d R j = validCloseB d R2 j := by
  simp only [validCloseB, h1, h2]

/-- A delimiter character is not a backslash. -/
theorem delim_ne_backslash {d : Char} (hd : isDelimChar d = true) :
    (d == '\\') = false := by
  simp only [isDelimChar, Bool.or_eq_true, beq_iff_eq] at hd
  rcases hd with h | h <;> rw [h] <;> decide

/-- A found closing position survives replacing everything after it. -/
theorem valueClose_extend {d : Char} {r5 : Str} {m : Nat}
    (h : valueClose d r5 = some m) (z : Str) :
    valueClose d (r5.take (m + 1) ++ z) = some m := by
  obtain ⟨hm, hvm, hmin⟩ := range_find_some.mp (by simpa [valueClose] using h)
  have hVlen : (r5.take (m + 1)).length = m + 1 := by
    simp [List.length_take]
    omega
  have hagree : ∀ j ≤ m,
      validCloseB d (r5.take (m + 1) ++ z) j = validCloseB d r5 j := by
    intro j hj
    apply validCloseB_congr
    · rw [List.get?_append (by omega), List.get?_take (by omega)]
    · rw [List.take_append_of_le_length (by omega), List.take_take]
      congr 1
      omega
  simp only [valueClose]
  rw [range_find_some]
  refine ⟨?_, ?_, ?_⟩
  · simp only [List.length_append, hVlen]
    omega
  · rw [hagree m le_rfl]
    exact hvm
  · intro i hi
    rw [hagree i (by omega)]
    exact hmin i hi

/-- Pointwise transfer of the absence of a valid closing position across a
sentinel substitution in the middle of the scanned tail. -/
theorem valueClose_replace_none {d : Char} (hd : isDelimChar d = true)
    {u₂ t rest : Str} {k : Nat}
    (htl : ∃ t₀ dl, t = t₀ ++ [dl] ∧ isDelimChar dl = true)
    (hnl : ∀ c ∈ u₂ ++ t ++ rest, c ≠ '\n')
    (hnone : valueClose d (u₂ ++ t ++ rest) = none) :
    valueClose d (u₂ ++ sentinel k ++ rest) = none := by
  obtain ⟨t₀, dl, ht, hdl⟩ := htl
  have hnl2 : ∀ c ∈ u₂ ++ sentinel k ++ rest, c ≠ '\n' := by
    intro c hc
    rcases List.mem_append.mp hc with hc1 | hc1
    · rcases List.mem_append.mp hc1 with hc2 | hc2
      · exact hnl c (by simp [hc2])
      · exact sentinel_noNl c hc2
    · exact hnl c (by simp [hc1])
  simp only [valueClose] at hnone ⊢
  rw [List.find?_eq_none] at hnone ⊢
  intro x hx
  simp only [List.mem_range] at hx
  rw [validCloseB_noNl hnl2 x]
  intro hval
  simp only [Bool.and_eq_true] at hval
  obtain ⟨hget, hbs⟩ := hval
  rcases Nat.lt_or_ge x u₂.length with hx1 | hx1
  · -- the closing position would sit inside the unchanged prefix
    have hR : (u₂ ++ t ++ rest).get? x = (u₂ ++ sentinel k ++ rest).get? x := by
      rw [List.append_assoc, List.append_assoc, List.get?_append hx1,
        List.get?_append hx1]
    have hT : (u₂ ++ t ++ rest).take x = (u₂ ++ sentinel k ++ rest).take x := by
      rw [List.append_assoc, List.append_assoc,
        List.take_append_of_le_length (le_of_lt hx1),
        List.take_append_of_le_length (le_of_lt hx1)]
    apply hnone x (by
      simp only [List.mem_range, List.length_append]
      simp only [List.length_append] at hx
      omega)
    rw [validCloseB_noNl hnl x, Bool.and_eq_true]
    refine ⟨?_, ?_⟩
    · rw [hR]
      exact hget
    · rw [hT]
      exact hbs
  · rcases Nat.lt_or_ge x (u₂.length + (sentinel k).length) with hx2 | hx2
    · -- the closing position would sit inside the sentinel
      have hgs : (u₂ ++ sentinel k ++ rest).get? x =
          (sentinel k).get? (x - u₂.length) := by
        rw [List.append_assoc, List.get?_append_right hx1,
          List.get?_append (by omega)]
      rw [hgs] at hget
      rcases hslook : (sentinel k).get? (x - u₂.length) with _ | c
      · rw [hslook] at hget
        simp at hget
      · rw [hslook] at hget
        have hcm : c ∈ sentinel k := List.get?_mem hslook
        have hne := sentinel_char_ne_delim hcm hd
        have hcd : c = d := by simpa using hget
        rw [beq_eq_false_iff_ne] at hne
        exact hne hcd
    · -- the closing position maps into the common right part
      have hxlt : x < u₂.length + (sentinel k).length + rest.length := by
        simp only [List.length_append] at hx
        omega
      have hρdef : x = u₂.length + (sentinel k).length + (x - u₂.length - (sentinel k).length) := by
        omega
      set ρ := x - u₂.length - (sentinel k).length with hρ
      have hρlt : ρ < rest.length := by omega
      set y := u₂.length + t.length + ρ with hy
      have hylt : y < (u₂ ++ t ++ rest).length := by
        simp only [List.length_append]
        omega
      have hg1 : (u₂ ++ sentinel k ++ rest).get? x = rest.get? ρ := by
        rw [List.append_assoc, List.get?_append_right hx1,
          List.get?_append_right (by omega)]
      have hg2 : (u₂ ++ t ++ rest).get? y = rest.get? ρ := by
        rw [List.append_assoc, List.get?_append_right (by omega),
          List.get?_append_right (by omega)]
        congr 1
        omega
      have htk1 : (u₂ ++ sentinel k ++ rest).take x =
          u₂ ++ (sentinel k ++ rest.take ρ) := by
        rw [List.append_assoc]
        conv_lhs => rw [hρdef]
        rw [Nat.add_assoc, List.take_append, List.take_append]
      have htk2 : (u₂ ++ t ++ rest).take y =
          u₂ ++ (t ++ rest.take ρ) := by
        rw [List.append_assoc, hy, Nat.add_assoc, List.take_append,
          List.take_append]
      have hb1 : bsRun ((u₂ ++ sentinel k ++ rest).take x).reverse =
          bsRun (rest.take ρ).reverse := by
        rw [htk1, List.reverse_append, List.reverse_append, sentinel_reverse]
        rw [List.append_assoc]
        exact bsRun_append_cons_ne (by decide) _ _
      have hb2 : bsRun ((u₂ ++ t ++ rest).take y).reverse =
          bsRun (rest.take ρ).reverse := by
        rw [htk2, List.reverse_append, List.reverse_append, ht,
          List.reverse_append]
        simp only [List.reverse_cons, List.reverse_nil, List.nil_append,
          List.singleton_append, List.cons_append]
        rw [List.append_assoc]
        exact bsRun_append_cons_ne (delim_ne_backslash hdl) _ _
      apply hnone y (by
        simp only [List.mem_range]
        exact hylt)
      rw [validCloseB_noNl hnl y, Bool.and_eq_true]
      refine ⟨?_, ?_⟩
      · rw [hg2, ← hg1]
        exact hget
      · rw [hb2, ← hb1]
        exact hbs

/-! ### Computation and transfer lemmas for `matchAt` (C3, C4) -/

theorem space_not_word {c : Char} (h : isSpaceChar c = true) :
    isWordChar c = false := by
  simp only [isSpaceChar, Bool.or_eq_true, beq_iff_eq] at h
  rcases h with ((((h | h) | h) | h) | h) | h <;> rw [h] <;> decide

theorem delim_not_space {c : Char} (h : isDelimChar c = true) :
    isSpaceChar c = false := by
  simp only [isDelimChar, Bool.or_eq_true, beq_iff_eq] at h
  rcases h with h | h <;> rw [h] <;> decide

theorem dropWhile_eq_self_of_tw_nil {p : Char → Bool} {l : Str}
    (h : l.takeWhile p = []) : l.dropWhile p = l := by
  have h2 := List.takeWhile_append_dropWhile p l
  rw [h] at h2
  simpa using h2

theorem all_of_dropWhile_nil {p : Char → Bool} {l : Str}
    (h : l.dropWhile p = []) : ∀ c ∈ l, p c = true := by
  intro c hc
  have h2 := List.takeWhile_append_dropWhile p l
  rw [h, List.append_nil] at h2
  rw [← h2] at hc
  exact List.mem_takeWhile_imp hc

/-- `matchAt` fails when the scan position has no word character. -/
theorem matchAt_none_of_empty {s : Str}
    (h : (s.takeWhile isWordChar).isEmpty = true) : matchAt s = none := by
  unfold matchAt
  rw [if_pos h]

theorem matchAt_nonword_head {c : Char} (hc : isWordChar c = false) (Y : Str) :
    matchAt (c :: Y) = none := by
  apply matchAt_none_of_empty
  rw [List.takeWhile_cons_of_neg (by simp [hc])]
  rfl

/-- `matchAt` fails when no colon follows the word run and the spaces. -/
theorem matchAt_none_of_shape {s : Str}
    (h : ∀ r3, (s.dropWhile isWordChar).dropWhile isSpaceChar ≠ ':' :: r3) :
    matchAt s = none := by
  unfold matchAt
  split
  · rfl
  · split
    · rename_i r3 heq
      exact absurd heq (h r3)
    · rfl

/-- `matchAt` fails when the character after the colon-and-spaces is not a
delimiter. -/
theorem matchAt_none_of_delim {s r3 : Str}
    (hcol : (s.dropWhile isWordChar).dropWhile isSpaceChar = ':' :: r3)
    (h : ∀ d r5, r3.dropWhile isSpaceChar = d :: r5 → isDelimChar d = false) :
    matchAt s = none := by
  unfold matchAt
  split
  · rfl
  · split
    · rename_i r3' heq
      rw [hcol] at heq
      have h2 := (List.cons_eq_cons.mp heq).2
      subst h2
      split
      · rename_i d r5 heq2
        rw [if_neg]
        simp [h d r5 heq2]
      · rfl
    · rfl

/-- `matchAt` fails when the value never closes. -/
theorem matchAt_none_of_close {s r3 : Str} {d : Char} {r5 : Str}
    (hcol : (s.dropWhile isWordChar).dropWhile isSpaceChar = ':' :: r3)
    (hdr : r3.dropWhile isSpaceChar = d :: r5)
    (hnone : valueClose d r5 = none) :
    matchAt s = none := by
  unfold matchAt
  split
  · rfl
  · split
    · rename_i r3' heq
      rw [hcol] at heq
      have h2 := (List.cons_eq_cons.mp heq).2
      subst h2
      split
      · rename_i d' r5' heq2
        rw [hdr] at heq2
        obtain ⟨hd2, hr2⟩ := List.cons_eq_cons.mp heq2
        subst hd2
        subst hr2
        by_cases hdd : isDelimChar d = true
        · rw [if_pos hdd, hnone]
        · rw [if_neg hdd]
      · rfl
    · rfl

/-- Computation rule for a successful `matchAt`. -/
theorem matchAt_eq_some_of {s r3 : Str} {d : Char} {r5 : Str} {m : Nat}
    (hw : (s.takeWhile isWordChar).isEmpty = false)
    (hcol : (s.dropWhile isWordChar).dropWhile isSpaceChar = ':' :: r3)
    (hdr : r3.dropWhile isSpaceChar = d :: r5)
    (hd : isDelimChar d = true)
    (hvc : valueClose d r5 = some m) :
    matchAt s = some (s.takeWhile isWordChar ++
      (s.dropWhile isWordChar).takeWhile isSpaceChar ++
      ':' :: (r3.takeWhile isSpaceChar ++ d :: r5.take (m + 1))) := by
  unfold matchAt
  rw [hw]
  rw [if_neg (by simp)]
  split
  · rename_i r3' heq
    rw [hcol] at heq
    have h2 := (List.cons_eq_cons.mp heq).2
    subst h2
    split
    · rename_i d' r5' heq2
      rw [hdr] at heq2
      obtain ⟨hd2, hr2⟩ := List.cons_eq_cons.mp heq2
      subst hd2
      subst hr2
      rw [if_pos hd, hvc]
    · rename_i heq2
      rw [hdr] at heq2
      cases heq2
  · rename_i x hne
    exact absurd hcol (by exact fun hh => hne r3 hh)

/-- A failing `matchAt` whose structural scan completes leaves no valid
closing position. -/
theorem matchAt_none_elim_close {s r3 : Str} {d : Char} {r5 : Str}
    (hw : (s.takeWhile isWordChar).isEmpty = false)
    (hcol : (s.dropWhile isWordChar).dropWhile isSpaceChar = ':' :: r3)
    (hdr : r3.dropWhile isSpaceChar = d :: r5)
    (hd : isDelimChar d = true)
    (hnone : matchAt s = none) :
    valueClose d r5 = none := by
  rcases hvc : valueClose d r5 with _ | mm
  · rfl
  · exfalso
    have h9 := matchAt_eq_some_of hw hcol hdr hd hvc
    rw [hnone] at h9
    cases h9

/-- The scan of an assembled match body anchored at its start succeeds and
matches exactly the body. -/
theorem matchAt_pieces (W SP1 SP2 : Str) (d : Char) (V z : Str) (m : Nat)
    (hWne : W ≠ []) (hWw : ∀ c ∈ W, isWordChar c = true)
    (hSP1 : ∀ c ∈ SP1, isSpaceChar c = true)
    (hSP2 : ∀ c ∈ SP2, isSpaceChar c = true)
    (hd : isDelimChar d = true)
    (hvc : valueClose d (V ++ z) = some m)
    (hVlen : V.length = m + 1) :
    matchAt ((W ++ SP1 ++ ':' :: (SP2 ++ d :: V)) ++ z) =
      some (W ++ SP1 ++ ':' :: (SP2 ++ d :: V)) := by
  have hshape : (W ++ SP1 ++ ':' :: (SP2 ++ d :: V)) ++ z =
      W ++ (SP1 ++ ':' :: (SP2 ++ d :: (V ++ z))) := by
    simp
  have hQtw : (SP1 ++ ':' :: (SP2 ++ d :: (V ++ z))).takeWhile isWordChar
      = [] := by
    cases SP1 with
    | nil =>
      rw [List.nil_append, List.takeWhile_cons_of_neg (by decide)]
    | cons c cs =>
      rw [List.cons_append,
        List.takeWhile_cons_of_neg (by simp [space_not_word (hSP1 c (by simp))])]
  have h1 : ((W ++ SP1 ++ ':' :: (SP2 ++ d :: V)) ++ z).takeWhile isWordChar
      = W := by
    rw [hshape, List.takeWhile_append_of_pos hWw, hQtw, List.append_nil]
  have h2 : ((W ++ SP1 ++ ':' :: (SP2 ++ d :: V)) ++ z).dropWhile isWordChar
      = SP1 ++ ':' :: (SP2 ++ d :: (V ++ z)) := by
    rw [hshape, List.dropWhile_append_of_pos hWw,
      dropWhile_eq_self_of_tw_nil hQtw]
  have h3 : (SP1 ++ ':' :: (SP2 ++ d :: (V ++ z))).dropWhile isSpaceChar =
      ':' :: (SP2 ++ d :: (V ++ z)) := by
    rw [List.dropWhile_append_of_pos hSP1,
      List.dropWhile_cons_of_neg (by decide)]
  have h4 : (SP2 ++ d :: (V ++ z)).dropWhile isSpaceChar =
      d :: (V ++ z) := by
    rw [List.dropWhile_append_of_pos hSP2,
      List.dropWhile_cons_of_neg (by simp [delim_not_space hd])]
  have h5 : (SP1 ++ ':' :: (SP2 ++ d :: (V ++ z))).takeWhile isSpaceChar =
      SP1 := by
    rw [List.takeWhile_append_of_pos hSP1,
      List.takeWhile_cons_of_neg (by decide), List.append_nil]
  have h6 : (SP2 ++ d :: (V ++ z)).takeWhile isSpaceChar = SP2 := by
    rw [List.takeWhile_append_of_pos hSP2,
      List.takeWhile_cons_of_neg (by simp [delim_not_space hd]),
      List.append_nil]
  have hwA : (((W ++ SP1 ++ ':' :: (SP2 ++ d :: V)) ++ z).takeWhile
      isWordChar).isEmpty = false := by
    rw [h1, Bool.eq_false_iff]
    intro hrm
    exact hWne (List.isEmpty_iff.mp hrm)
  have hcolA : ((((W ++ SP1 ++ ':' :: (SP2 ++ d :: V)) ++ z).dropWhile
      isWordChar).dropWhile isSpaceChar) = ':' :: (SP2 ++ d :: (V ++ z)) := by
    rw [h2, h3]
  have hres := matchAt_eq_some_of hwA hcolA h4 hd hvc
  rw [hres, h1, h2, h5, h6, List.take_append_of_le_length (by omega),
    List.take_of_length_le (by omega)]

/-- A matched text scans to itself in any right context. -/
theorem matchAt_extend {u t : Str} (hm : matchAt u = some t) (z : Str) :
    matchAt (t ++ z) = some t := by
  obtain ⟨r3, d, r5, m, hw, hcol, hdr, hd, hvc, ht⟩ := matchAt_some_elim hm
  have hmlt : m < r5.length :=
    (range_find_some.mp (by simpa [valueClose] using hvc)).1
  have hres := matchAt_pieces (u.takeWhile isWordChar)
    ((u.dropWhile isWordChar).takeWhile isSpaceChar)
    (r3.takeWhile isSpaceChar) d (r5.take (m + 1)) z m
    (by intro h0
        rw [h0] at hw
        simp at hw)
    (fun c hc => List.mem_takeWhile_imp hc)
    (fun c hc => List.mem_takeWhile_imp hc)
    (fun c hc => List.mem_takeWhile_imp hc)
    hd (valueClose_extend hvc z)
    (by simp [List.length_take]; omega)
  rw [ht]
  exact hres

/-- No metatag match can start inside a sentinel. -/
theorem matchAt_sentinel_drop {k : Nat} (rest : Str) :
    ∀ r, r < (sentinel k).length →
      matchAt ((sentinel k).drop r ++ rest) = none := by
  intro r hr
  match r with
  | 0 =>
    have h1 : (sentinel k).drop 0 ++ rest =
        '%' :: (('%' :: (natDigits k ++ ['%', '%'])) ++ rest) := by
      simp [sentinel]
    rw [h1]
    exact matchAt_nonword_head (by decide) _
  | 1 =>
    have h1 : (sentinel k).drop 1 ++ rest =
        '%' :: ((natDigits k ++ ['%', '%']) ++ rest) := by
      simp [sentinel]
    rw [h1]
    exact matchAt_nonword_head (by decide) _
  | r2 + 2 =>
    have hdrop : (sentinel k).drop (r2 + 2) =
        (natDigits k ++ ['%', '%']).drop r2 := by
      simp [sentinel]
    rcases Nat.lt_or_ge r2 (natDigits k).length with hlt | hge
    · have h1 : (sentinel k).drop (r2 + 2) ++ rest =
          (natDigits k).drop r2 ++ ('%' :: ('%' :: rest)) := by
        rw [hdrop, List.drop_append_of_le_length (le_of_lt hlt)]
        simp
      rw [h1]
      apply matchAt_none_of_shape
      intro r3
      have hdd : ∀ c ∈ (natDigits k).drop r2, isWordChar c = true := by
        intro c hc
        exact natDigits_word k c (List.mem_of_mem_drop hc)
      rw [List.dropWhile_append_of_pos hdd,
        List.dropWhile_cons_of_neg (by decide),
        List.dropWhile_cons_of_neg (by decide)]
      simp
    · obtain ⟨j, hj⟩ : ∃ j, r2 = (natDigits k).length + j :=
        ⟨r2 - (natDigits k).length, by omega⟩
      have hjlt : j < 2 := by
        have hsl : (sentinel k).length = (natDigits k).length + 4 := by
          simp [sentinel]
        omega
      subst hj
      rw [hdrop, List.drop_append]
      match j, hjlt with
      | 0, _ =>
        exact matchAt_nonword_head (by decide) _
      | 1, _ =>
        exact matchAt_nonword_head (by decide) _

/-- Failure transfer: at a position strictly before the match, replacing the
matched text by a sentinel cannot create a match (for newline-free text). -/
theorem matchAt_none_transfer {u t rest : Str} {k : Nat}
    (htl : ∃ t₀ dl, t = t₀ ++ [dl] ∧ isDelimChar dl = true)
    (hnl : ∀ c ∈ u ++ (t ++ rest), c ≠ '\n')
    (hfail : matchAt (u ++ (t ++ rest)) = none) :
    matchAt (u ++ (sentinel k ++ rest)) = none := by
  have hX' : sentinel k ++ rest =
      '%' :: (('%' :: (natDigits k ++ ['%', '%'])) ++ rest) := by
    simp [sentinel]
  by_cases hdw : u.dropWhile isWordChar = []
  · -- the scan would cross into the sentinel during the word run
    have hall : ∀ c ∈ u, isWordChar c = true := all_of_dropWhile_nil hdw
    apply matchAt_none_of_shape
    intro r3
    rw [List.dropWhile_append_of_pos hall, hX',
      List.dropWhile_cons_of_neg (by decide),
      List.dropWhile_cons_of_neg (by decide)]
    simp
  · have htw' : (u ++ (sentinel k ++ rest)).takeWhile isWordChar =
        u.takeWhile isWordChar := tw_append_of_drop_ne hdw _
    by_cases hwe : (u.takeWhile isWordChar).isEmpty = true
    · apply matchAt_none_of_empty
      rw [htw']
      exact hwe
    · have hdw1 : (u ++ (sentinel k ++ rest)).dropWhile isWordChar =
          u.dropWhile isWordChar ++ (sentinel k ++ rest) :=
        dw_append_of_drop_ne hdw _
      by_cases hds : (u.dropWhile isWordChar).dropWhile isSpaceChar = []
      · -- the scan would cross into the sentinel looking for the colon
        have hall1 : ∀ c ∈ u.dropWhile isWordChar, isSpaceChar c = true :=
          all_of_dropWhile_nil hds
        apply matchAt_none_of_shape
        intro r3
        rw [hdw1, List.dropWhile_append_of_pos hall1, hX',
          List.dropWhile_cons_of_neg (by decide)]
        simp
      · have hds1 : ((u.dropWhile isWordChar) ++
            (sentinel k ++ rest)).dropWhile isSpaceChar =
            (u.dropWhile isWordChar).dropWhile isSpaceChar ++
              (sentinel k ++ rest) :=
          dw_append_of_drop_ne hds _
        rcases hu2 : (u.dropWhile isWordChar).dropWhile isSpaceChar with
          _ | ⟨c₂, u₃⟩
        · exact absurd hu2 hds
        · by_cases hc₂ : c₂ = ':'
          · subst hc₂
            by_cases hs3 : u₃.dropWhile isSpaceChar = []
            · -- the scan would cross into the sentinel at the delimiter
              have hall3 : ∀ c ∈ u₃, isSpaceChar c = true :=
                all_of_dropWhile_nil hs3
              have hcolS : ((u ++ (sentinel k ++ rest)).dropWhile
                  isWordChar).dropWhile isSpaceChar =
                  ':' :: (u₃ ++ (sentinel k ++ rest)) := by
                rw [hdw1, hds1, hu2]
                simp
              apply matchAt_none_of_delim hcolS
              intro d r5 hdr5
              rw [List.dropWhile_append_of_pos hall3, hX',
                List.dropWhile_cons_of_neg (by decide)] at hdr5
              have hd0 := (List.cons_eq_cons.mp hdr5).1
              rw [← hd0]
              decide
            · rcases hu4 : u₃.dropWhile isSpaceChar with _ | ⟨d, u₅⟩
              · exact absurd hu4 hs3
              · have hds3 : (u₃ ++ (sentinel k ++ rest)).dropWhile
                    isSpaceChar = d :: (u₅ ++ (sentinel k ++ rest)) := by
                  rw [dw_append_of_drop_ne hs3 _, hu4]
                  simp
                have hcolS : ((u ++ (sentinel k ++ rest)).dropWhile
                    isWordChar).dropWhile isSpaceChar =
                    ':' :: (u₃ ++ (sentinel k ++ rest)) := by
                  rw [hdw1, hds1, hu2]
                  simp
                by_cases hdel : isDelimChar d = true
                · -- the structure completes inside `u` in both strings
                  have htwX : (u ++ (t ++ rest)).takeWhile isWordChar =
                      u.takeWhile isWordChar := tw_append_of_drop_ne hdw _
                  have hdwX : (u ++ (t ++ rest)).dropWhile isWordChar =
                      u.dropWhile isWordChar ++ (t ++ rest) :=
                    dw_append_of_drop_ne hdw _
                  have hcolX : ((u ++ (t ++ rest)).dropWhile
                      isWordChar).dropWhile isSpaceChar =
                      ':' :: (u₃ ++ (t ++ rest)) := by
                    rw [hdwX, dw_append_of_drop_ne hds _, hu2]
                    simp
                  have hds3X : (u₃ ++ (t ++ rest)).dropWhile isSpaceChar =
                      d :: (u₅ ++ (t ++ rest)) := by
                    rw [dw_append_of_drop_ne hs3 _, hu4]
                    simp
                  have hcl : valueClose d (u₅ ++ (t ++ rest)) = none := by
                    apply matchAt_none_elim_close ?_ hcolX hds3X hdel hfail
                    rw [htwX]
                    exact Bool.eq_false_iff.mpr hwe
                  have hsub5 : ∀ c ∈ u₅, c ∈ u := by
                    intro c hc
                    have h1 : c ∈ u₃.dropWhile isSpaceChar := by
                      rw [hu4]
                      simp [hc]
                    have h2 : c ∈ u₃ := (List.dropWhile_sublist _).subset h1
                    have h3 : c ∈ (u.dropWhile isWordChar).dropWhile
                        isSpaceChar := by
                      rw [hu2]
                      simp [h2]
                    have h4 : c ∈ u.dropWhile isWordChar :=
                      (List.dropWhile_sublist _).subset h3
                    exact (List.dropWhile_sublist _).subset h4
                  have hnl5 : ∀ c ∈ u₅ ++ t ++ rest, c ≠ '\n' := by
                    intro c hc
                    rcases List.mem_append.mp hc with hc1 | hc1
                    · rcases List.mem_append.mp hc1 with hc2 | hc2
                      · exact hnl c (by simp [hsub5 c hc2])
                      · exact hnl c (by simp [hc2])
                    · exact hnl c (by simp [hc1])
                  have hclS : valueClose d (u₅ ++ sentinel k ++ rest) =
                      none := by
                    apply valueClose_replace_none hdel ⟨_, _, htl.choose_spec.choose_spec⟩ hnl5
                    rw [List.append_assoc]
                    exact hcl
                  apply matchAt_none_of_close hcolS hds3
                  rw [← List.append_assoc]
                  exact hclS
                · apply matchAt_none_of_delim hcolS
                  intro d' r5' hdr5
                  rw [hds3] at hdr5
                  have hd0 := (List.cons_eq_cons.mp hdr5).1
                  rw [← hd0]
                  exact Bool.eq_false_iff.mpr hdel
          · -- the non-space character inside `u` is not a colon
            apply matchAt_none_of_shape
            intro r3
            rw [hdw1, hds1, hu2]
            intro hcontra
            rw [List.cons_append] at hcontra
            exact hc₂ (List.cons_eq_cons.mp hcontra).1

/-! ### Sentinel occurrence analysis for restoration (C3) -/

/-- The placeholder shape is stable under extending the string to the
right. -/
theorem shapeAtB_append {w : Str} (h : shapeAtB w = true) (z : Str) :
    shapeAtB (w ++ z) = true := by
  have hsa : ∀ r : Str, shapeAtB ('%' :: ('%' :: r)) =
      (!(r.takeWhile Char.isDigit).isEmpty &&
        ((r.dropWhile Char.isDigit).head? == some '%')) := fun r => rfl
  unfold shapeAtB at h
  split at h
  · rename_i r
    rw [List.cons_append, List.cons_append, hsa]
    simp only [Bool.and_eq_true] at h
    obtain ⟨hne, hhd⟩ := h
    have hdne : r.dropWhile Char.isDigit ≠ [] := by
      intro h0
      rw [h0] at hhd
      simp at hhd
    rw [tw_append_of_drop_ne hdne, dw_append_of_drop_ne hdne]
    obtain ⟨w', hw'⟩ : ∃ w', r.dropWhile Char.isDigit = '%' :: w' := by
      rcases hx : r.dropWhile Char.isDigit with _ | ⟨c0, w'⟩
      · exact absurd hx hdne
      · rw [hx] at hhd
        simp only [List.head?_cons, beq_iff_eq, Option.some_inj] at hhd
        exact ⟨w', by rw [hhd]⟩
    rw [hw']
    simp only [List.cons_append, List.head?_cons, Bool.and_eq_true]
    exact ⟨hne, by simp⟩
  · exact absurd h (by simp)

/-- `hasShapeB` detects a shape at some scan offset. -/
theorem hasShapeB_iff {s : Str} :
    hasShapeB s = true ↔ ∃ j, shapeAtB (s.drop j) = true := by
  induction s with
  | nil =>
    simp [hasShapeB, List.drop_nil, show shapeAtB [] = false from rfl]
  | cons c r ih =>
    have he : hasShapeB (c :: r) = (shapeAtB (c :: r) || hasShapeB r) := rfl
    rw [he, Bool.or_eq_true, ih]
    constructor
    · rintro (h | ⟨j, hj⟩)
      · exact ⟨0, by simpa using h⟩
      · exact ⟨j + 1, by simpa using hj⟩
    · rintro ⟨j, hj⟩
      match j with
      | 0 => exact Or.inl (by simpa using hj)
      | j + 1 => exact Or.inr ⟨j, by simpa using hj⟩

theorem hasShapeB_of_drop {s : Str} {j : Nat}
    (h : shapeAtB (s.drop j) = true) : hasShapeB s = true :=
  hasShapeB_iff.mpr ⟨j, h⟩

/-- A shape in a prefix is a shape in the whole string. -/
theorem hasShapeB_append_left {A : Str} (B : Str) (h : hasShapeB A = true) :
    hasShapeB (A ++ B) = true := by
  obtain ⟨j, hj⟩ := hasShapeB_iff.mp h
  apply hasShapeB_iff.mpr
  refine ⟨j, ?_⟩
  rcases Nat.lt_or_ge j A.length with hlt | hge
  · rw [List.drop_append_of_le_length (le_of_lt hlt)]
    exact shapeAtB_append hj B
  · rw [List.drop_eq_nil_of_le hge] at hj
    exact absurd hj (by decide)

/-- A shape in a suffix is a shape in the whole string. -/
theorem hasShapeB_append_right (A : Str) {B : Str} (h : hasShapeB B = true) :
    hasShapeB (A ++ B) = true := by
  obtain ⟨j, hj⟩ := hasShapeB_iff.mp h
  apply hasShapeB_iff.mpr
  refine ⟨A.length + j, ?_⟩
  rw [List.drop_append]
  exact hj

/-- A sentinel at the scan position is a placeholder shape. -/
theorem sentinel_shapeAt {k : Nat} {w : Str}
    (h : (sentinel k).isPrefixOf w = true) : shapeAtB w = true := by
  obtain ⟨z, hz⟩ := List.isPrefixOf_iff_prefix.mp h
  rw [← hz]
  have hshape : sentinel k ++ z =
      '%' :: ('%' :: (natDigits k ++ ('%' :: ('%' :: z)))) := by
    simp [sentinel]
  rw [hshape]
  have hsa : ∀ r : Str, shapeAtB ('%' :: ('%' :: r)) =
      (!(r.takeWhile Char.isDigit).isEmpty &&
        ((r.dropWhile Char.isDigit).head? == some '%')) := fun r => rfl
  rw [hsa]
  rw [List.takeWhile_append_of_pos (natDigits_all_digit k),
    List.dropWhile_append_of_pos (natDigits_all_digit k),
    List.takeWhile_cons_of_neg (by decide),
    List.dropWhile_cons_of_neg (by decide)]
  simp only [List.append_nil, List.head?_cons, Bool.and_eq_true]
  refine ⟨?_, by simp⟩
  cases hD : natDigits k with
  | nil => exact absurd hD (natDigits_ne_nil k)
  | cons a l => rfl

/-- Before its own sentinel, a shape-free, word-boundary-ended prefix admits
no occurrence of that sentinel. -/
theorem sentinel_no_early {k : Nat} {P T : Str}
    (hsh : hasShapeB P = false) (hend : endOkB P = true) :
    ∀ j < P.length,
      (sentinel k).isPrefixOf ((P ++ (sentinel k ++ T)).drop j) = false := by
  intro j hj
  cases hx : (sentinel k).isPrefixOf ((P ++ (sentinel k ++ T)).drop j) with
  | false => rfl
  | true =>
    exfalso
    have hdropP : (P ++ (sentinel k ++ T)).drop j =
        P.drop j ++ (sentinel k ++ T) :=
      List.drop_append_of_le_length (le_of_lt hj)
    rw [hdropP] at hx
    have hwne : P.drop j ≠ [] := by
      intro h0
      have := List.drop_eq_nil_iff.mp h0
      omega
    have hshape_inside : (sentinel k).isPrefixOf (P.drop j) = true → False := by
      intro hpre
      exact absurd (hasShapeB_of_drop (sentinel_shapeAt hpre))
        (by simp [hsh])
    rcases Nat.le_total (sentinel k).length (P.drop j).length with hle | hge
    · -- the whole sentinel lies inside `P`
      apply hshape_inside
      have hp := List.isPrefixOf_iff_prefix.mp hx
      have htake := List.prefix_iff_eq_take.mp hp
      rw [List.take_append_of_le_length hle] at htake
      have hq := List.take_prefix ((sentinel k).length) (P.drop j)
      rw [← htake] at hq
      exact List.isPrefixOf_iff_prefix.mpr hq
    · obtain ⟨w2, hw2, hw2p⟩ := prefix_decomp hx hge
      rcases hw2nil : w2 with _ | ⟨v0, v'⟩
      · -- the suffix of `P` is the whole sentinel
        apply hshape_inside
        rw [hw2nil, List.append_nil] at hw2
        rw [← hw2]
        exact List.isPrefixOf_iff_prefix.mpr (List.prefix_refl _)
      · -- a proper straddle
        rcases hpd : P.drop j with _ | ⟨c1, w1⟩
        · exact hwne hpd
        · rw [hpd] at hw2
          rw [List.cons_append] at hw2
          have hw2s : '%' :: ('%' :: (natDigits k ++ ['%', '%'])) =
              c1 :: (w1 ++ w2) := by
            rw [← hw2]
            simp [sentinel]
          obtain ⟨hc1, hw2'⟩ := List.cons_eq_cons.mp hw2s
          rcases hw1c : w1 with _ | ⟨c2, w1'⟩
          · -- only the first percent sign comes from `P`
            rw [hw1c, List.nil_append] at hw2'
            have hp2 := List.isPrefixOf_iff_prefix.mp hw2p
            rw [← hw2'] at hp2
            have hst : sentinel k ++ T =
                '%' :: ('%' :: ((natDigits k ++ ['%', '%']) ++ T)) := by
              simp [sentinel]
            rw [hst] at hp2
            have h2 := (List.cons_prefix_cons.mp hp2).2
            rcases hD : natDigits k with _ | ⟨d0, D'⟩
            · exact natDigits_ne_nil k hD
            · rw [hD, List.cons_append, List.cons_append] at h2
              have h3 := (List.cons_prefix_cons.mp h2).1
              have h4 := natDigits_all_digit k d0 (by rw [hD]; simp)
              rw [h3] at h4
              exact absurd h4 (by decide)
          · rw [hw1c, List.cons_append] at hw2'
            obtain ⟨hc2, hw2''⟩ := List.cons_eq_cons.mp hw2'
            -- hw2'' : natDigits k ++ ['%','%'] = w1' ++ w2
            rcases Nat.lt_or_ge w1'.length ((natDigits k).length + 1) with
              hl | hg
            · -- the straddle stops inside the digits (or right before them)
              have hw1t : w1' = (natDigits k).take w1'.length := by
                have h5 : w1' = (w1' ++ w2).take w1'.length := by
                  rw [List.take_left]
                rw [← hw2''] at h5
                rw [List.take_append_of_le_length (by omega)] at h5
                exact h5
              rcases hw1'c : w1' with _ | ⟨e0, w1''⟩
              · -- both percent signs come from `P`, digits from the sentinel
                rw [hw1'c, List.nil_append] at hw2''
                have hp2 := List.isPrefixOf_iff_prefix.mp hw2p
                rw [← hw2''] at hp2
                have hst : sentinel k ++ T =
                    '%' :: ('%' :: ((natDigits k ++ ['%', '%']) ++ T)) := by
                  simp [sentinel]
                rw [hst] at hp2
                rcases hD : natDigits k with _ | ⟨d0, D'⟩
                · exact natDigits_ne_nil k hD
                · rw [hD, List.cons_append, List.cons_append] at hp2
                  have h3 := (List.cons_prefix_cons.mp hp2).1
                  have h4 := natDigits_all_digit k d0 (by rw [hD]; simp)
                  rw [h3] at h4
                  exact absurd h4 (by decide)
              · -- `P` ends inside the digit run: its last character is a digit
                have hPlast : P.getLast? = (P.drop j).getLast? := by
                  conv_lhs => rw [← List.take_append_drop j P]
                  rw [List.getLast?_append_of_ne_nil _ hwne]
                rcases hlast : w1'.getLast? with _ | lc
                · rw [hw1'c] at hlast
                  simp at hlast
                · have hlcd : lc.isDigit = true := by
                    have hmem := List.mem_of_getLast?_eq_some hlast
                    rw [hw1t] at hmem
                    exact natDigits_all_digit k lc (List.take_subset _ _ hmem)
                  have hPl : P.getLast? = some lc := by
                    rw [hPlast, hpd, hw1c, List.getLast?_cons_cons, hw1'c,
                      List.getLast?_cons_cons, ← hw1'c]
                    exact hlast
                  have hlw : isWordChar lc = false := by
                    simp [endOkB, hPl] at hend
                    exact hend
                  rw [show isWordChar lc = true by
                    simp [isWordChar, Char.isAlphanum, hlcd]] at hlw
                  cases hlw
            · -- `P` carries the digits and the third percent sign: a shape
              have hv' : v'.length = 0 ∧
                  w1'.length = (natDigits k).length + 1 := by
                have h5 := congrArg List.length hw2''
                rw [hw2nil] at h5
                simp only [List.length_append, List.length_cons,
                  List.length_nil] at h5
                constructor <;> omega
              have hw1v : w1' = natDigits k ++ ['%'] := by
                have h5 : w1' = (w1' ++ w2).take w1'.length := by
                  rw [List.take_left]
                rw [← hw2''] at h5
                rw [hv'.2] at h5
                rw [show (natDigits k).length + 1 =
                  (natDigits k).length + 1 from rfl] at h5
                rw [List.take_append] at h5
                simpa using h5
              apply absurd (hasShapeB_of_drop (s := P) (j := j) ?_)
                (by simp [hsh])
              rw [hpd, hw1c, hw1v, ← hc1, ← hc2]
              have hsa : ∀ r : Str, shapeAtB ('%' :: ('%' :: r)) =
                  (!(r.takeWhile Char.isDigit).isEmpty &&
                    ((r.dropWhile Char.isDigit).head? == some '%')) :=
                fun r => rfl
              rw [hsa,
                List.takeWhile_append_of_pos (natDigits_all_digit k),
                List.dropWhile_append_of_pos (natDigits_all_digit k)]
              simp only [List.takeWhile_cons_of_neg (by decide : ¬(Char.isDigit '%' = true)),
                List.dropWhile_cons_of_neg (by decide : ¬(Char.isDigit '%' = true)),
                List.append_nil, List.head?_cons, Bool.and_eq_true]
              refine ⟨?_, by simp⟩
              cases hD : natDigits k with
              | nil => exact absurd hD (natDigits_ne_nil k)
              | cons a l => rfl

/-- A shape-free prefix whose last character is neither a word character nor
a percent sign admits no sentinel occurrence starting inside it, whatever
follows. -/
theorem sentinel_no_occ_frame {k : Nat} {P : Str} (X : Str)
    (hsh : hasShapeB P = false)
    (hlast : ∀ c, P.getLast? = some c → isWordChar c = false ∧ c ≠ '%') :
    ∀ j < P.length, (sentinel k).isPrefixOf ((P ++ X).drop j) = false := by
  intro j hj
  cases hx : (sentinel k).isPrefixOf ((P ++ X).drop j) with
  | false => rfl
  | true =>
    exfalso
    have hdropP : (P ++ X).drop j = P.drop j ++ X :=
      List.drop_append_of_le_length (le_of_lt hj)
    rw [hdropP] at hx
    have hwne : P.drop j ≠ [] := by
      intro h0
      have := List.drop_eq_nil_iff.mp h0
      omega
    rcases Nat.le_total (sentinel k).length (P.drop j).length with hle | hge
    · have hpre : (sentinel k).isPrefixOf (P.drop j) = true := by
        have hp := List.isPrefixOf_iff_prefix.mp hx
        have htake := List.prefix_iff_eq_take.mp hp
        rw [List.take_append_of_le_length hle] at htake
        have hq := List.take_prefix ((sentinel k).length) (P.drop j)
        rw [← htake] at hq
        exact List.isPrefixOf_iff_prefix.mpr hq
      exact absurd (hasShapeB_of_drop (sentinel_shapeAt hpre)) (by simp [hsh])
    · obtain ⟨w2, hw2, -⟩ := prefix_decomp hx hge
      have hPlast : P.getLast? = (P.drop j).getLast? := by
        conv_lhs => rw [← List.take_append_drop j P]
        rw [List.getLast?_append_of_ne_nil _ hwne]
      rcases hpd : P.drop j with _ | ⟨c1, w1⟩
      · exact hwne hpd
      · have hsome : ∃ lc, (c1 :: w1).getLast? = some lc := by
          rcases hgl : (c1 :: w1).getLast? with _ | lc
        
          · simp at hgl
          · exact ⟨lc, rfl⟩
        obtain ⟨lc, hlc⟩ := hsome
        have hmemw : lc ∈ c1 :: w1 := List.mem_of_getLast?_eq_some hlc
        have hmemS : lc ∈ sentinel k := by
          rw [hpd] at hw2
          rw [hw2]
          exact List.mem_append_left _ hmemw
        have hPl : P.getLast? = some lc := by
          rw [hPlast, hpd]
          exact hlc
        obtain ⟨hword, hpct⟩ := hlast lc hPl
        rcases sentinel_chars hmemS with h | h
        · exact hpct h
        · rw [show isWordChar lc = true by
            simp [isWordChar, Char.isAlphanum, h]] at hword
          cases hword

/-- Restoration replaces exactly the sentinel standing after the restored
prefix. -/
theorem restore_splice {k : Nat} {P T t : Str}
    (hsh : hasShapeB P = false) (hend : endOkB P = true) :
    replaceFirst (sentinel k) t (P ++ sentinel k ++ T) = P ++ t ++ T := by
  apply replaceFirst_at (by simp [sentinel])
  intro j hj
  have h1 := sentinel_no_early (k := k) (T := T) hsh hend j hj
  rw [List.append_assoc]
  exact h1

/-- Restoration of one sentinel never touches a shape-free, delimiter-ended
prefix. -/
theorem replaceFirst_sentinel_frame {k : Nat} {P : Str} (t X : Str)
    (hsh : hasShapeB P = false)
    (hlast : ∀ c, P.getLast? = some c → isWordChar c = false ∧ c ≠ '%') :
    replaceFirst (sentinel k) t (P ++ X) =
      P ++ replaceFirst (sentinel k) t X :=
  replaceFirst_append_no_hit X (sentinel_no_occ_frame X hsh hlast)

/-- Restoration of a whole table never touches a shape-free, delimiter-ended
prefix. -/
theorem restoreAll_frame {P : Str}
    (hsh : hasShapeB P = false)
    (hlast : ∀ c, P.getLast? = some c → isWordChar c = false ∧ c ≠ '%') :
    ∀ (tb : List (Nat × Str)) (X : Str),
      restoreAll tb (P ++ X) = P ++ restoreAll tb X := by
  intro tb
  induction tb with
  | nil =>
    intro X
    simp [restoreAll]
  | cons e tb' ih =>
    intro X
    have h1 : restoreAll (e :: tb') (P ++ X) =
        restoreAll tb' (replaceFirst (sentinel e.1) e.2 (P ++ X)) := rfl
    rw [h1, replaceFirst_sentinel_frame e.2 X hsh hlast, ih]
    rfl

/-- Restoring the table ascending turns the woven sentinels back into the
matched texts: the core of the protect-then-restore round trip. -/
theorem restoreAll_weave :
    ∀ (ps : List (Str × Str)) (i : Nat) (last : Str),
      (∀ p ∈ ps, hasShapeB (p.1 ++ p.2) = false ∧ endOkB p.1 = true ∧
        ∃ c, p.2.getLast? = some c ∧ isDelimChar c = true) →
      restoreAll (tableOf i ps) (weaveS i ps last) = weaveT ps last := by
  intro ps
  induction ps with
  | nil =>
    intro i last _
    rfl
  | cons p ps' ih =>
    intro i last hcond
    obtain ⟨hsh12, hend1, c, hclast, hcdel⟩ := hcond p (by simp)
    have hsh1 : hasShapeB p.1 = false := by
      cases hx : hasShapeB p.1 with
      | false => rfl
      | true => exact absurd (hasShapeB_append_left p.2 hx) (by simp [hsh12])
    have hlast12 : ∀ ch, (p.1 ++ p.2).getLast? = some ch →
        isWordChar ch = false ∧ ch ≠ '%' := by
      intro ch hch
      have hne2 : p.2 ≠ [] := by
        intro h0
        rw [h0] at hclast
        simp at hclast
      rw [List.getLast?_append_of_ne_nil _ hne2, hclast] at hch
      have hce : c = ch := Option.some_inj.mp hch
      subst hce
      simp only [isDelimChar, Bool.or_eq_true, beq_iff_eq] at hcdel
      rcases hcdel with h | h <;> rw [h] <;> exact ⟨by decide, by decide⟩
    have h1 : restoreAll (tableOf i (p :: ps')) (weaveS i (p :: ps') last) =
        restoreAll (tableOf (i + 1) ps')
          (replaceFirst (sentinel i) p.2
            (p.1 ++ sentinel i ++ weaveS (i + 1) ps' last)) := rfl
    rw [h1, restore_splice hsh1 hend1,
      restoreAll_frame hsh12 hlast12 (tableOf (i + 1) ps')
        (weaveS (i + 1) ps' last),
      ih (i + 1) last (fun q hq => hcond q (by simp [hq]))]
    rfl

/-! ### Weave structure lemmas and the forward protection invariant -/

theorem weaveS_split : ∀ (ps : List (Str × Str)) (i : Nat) (last : Str),
    weaveS i ps last = weaveS i ps [] ++ last := by
  intro ps
  induction ps with
  | nil =>
    intro i last
    simp [weaveS]
  | cons p ps' ih =>
    intro i last
    show p.1 ++ sentinel i ++ weaveS (i + 1) ps' last =
      (p.1 ++ sentinel i ++ weaveS (i + 1) ps' []) ++ last
    rw [ih (i + 1) last]
    simp

theorem weaveS_append_pair : ∀ (ps : List (Str × Str)) (i : Nat)
    (q : Str × Str) (last : Str),
    weaveS i (ps ++ [q]) last =
      weaveS i ps (q.1 ++ sentinel (i + ps.length) ++ last) := by
  intro ps
  induction ps with
  | nil =>
    intro i q last
    simp [weaveS]
  | cons p ps' ih =>
    intro i q last
    show p.1 ++ sentinel i ++ weaveS (i + 1) (ps' ++ [q]) last =
      p.1 ++ sentinel i ++
        weaveS (i + 1) ps' (q.1 ++ sentinel (i + (p :: ps').length) ++ last)
    rw [ih (i + 1) q last]
    rw [show i + 1 + ps'.length = i + (p :: ps').length from by
      simp only [List.length_cons]
      omega]

theorem weaveT_append_pair : ∀ (ps : List (Str × Str)) (q : Str × Str)
    (last : Str),
    weaveT (ps ++ [q]) last = weaveT ps (q.1 ++ q.2 ++ last) := by
  intro ps
  induction ps with
  | nil =>
    intro q last
    simp [weaveT]
  | cons p ps' ih =>
    intro q last
    show p.1 ++ p.2 ++ weaveT (ps' ++ [q]) last =
      p.1 ++ p.2 ++ weaveT ps' (q.1 ++ q.2 ++ last)
    rw [ih q last]

theorem tableOf_append : ∀ (ps : List (Str × Str)) (i : Nat) (q : Str × Str),
    tableOf i (ps ++ [q]) = tableOf i ps ++ [(i + ps.length, q.2)] := by
  intro ps
  induction ps with
  | nil =>
    intro i q
    simp [tableOf]
  | cons p ps' ih =>
    intro i q
    show (i, p.2) :: tableOf (i + 1) (ps' ++ [q]) =
      (i, p.2) :: tableOf (i + 1) ps' ++ [(i + (p :: ps').length, q.2)]
    rw [ih (i + 1) q]
    rw [show i + 1 + ps'.length = i + (p :: ps').length from by
      simp only [List.length_cons]
      omega]
    rfl

theorem tableOf_length : ∀ (ps : List (Str × Str)) (i : Nat),
    (tableOf i ps).length = ps.length := by
  intro ps
  induction ps with
  | nil => intro i; rfl
  | cons p ps' ih =>
    intro i
    show (tableOf (i + 1) ps').length + 1 = ps'.length + 1
    rw [ih (i + 1)]

theorem tableOf_map_fst : ∀ (ps : List (Str × Str)) (i : Nat),
    (tableOf i ps).map Prod.fst = List.range' i ps.length := by
  intro ps
  induction ps with
  | nil => intro i; rfl
  | cons p ps' ih =>
    intro i
    show i :: (tableOf (i + 1) ps').map Prod.fst =
      List.range' i (ps'.length + 1)
    rw [ih (i + 1), List.range'_succ]

/-- Splitting a two-sided append equation at the shorter left part. -/
theorem append_eq_append_of_le {A B C D : Str} (h : A ++ B = C ++ D)
    (hl : A.length ≤ C.length) : ∃ E, C = A ++ E ∧ B = E ++ D := by
  refine ⟨C.drop A.length, ?_, ?_⟩
  · have h2 := congrArg (fun l => l.take A.length) h
    simp only at h2
    rw [List.take_left, List.take_append_of_le_length hl] at h2
    conv_lhs => rw [← List.take_append_drop A.length C]
    rw [← h2]
  · have h2 := congrArg (fun l => l.drop A.length) h
    simp only at h2
    rw [List.drop_left, List.drop_append_of_le_length hl] at h2
    exact h2

/-- The matched text ends with the closing delimiter. -/
theorem matchAt_last_delim {u t : Str} (h : matchAt u = some t) :
    ∃ t₀ dl, t = t₀ ++ [dl] ∧ isDelimChar dl = true := by
  obtain ⟨r3, d, r5, m, hw, hcol, hdr, hd, hvc, ht⟩ := matchAt_some_elim h
  have hvm := range_find_some.mp (by simpa [valueClose] using hvc)
  have hget : r5.get? m = some d := by
    have hv := hvm.2.1
    simp only [validCloseB, Bool.and_eq_true] at hv
    have h9 := hv.1.1
    simpa using h9
  have htk : r5.take (m + 1) = r5.take m ++ [d] := by
    rw [List.take_succ]
    rw [List.get?_eq_getElem?] at hget
    rw [hget]
    rfl
  refine ⟨u.takeWhile isWordChar ++
    (u.dropWhile isWordChar).takeWhile isSpaceChar ++
    ':' :: (r3.takeWhile isSpaceChar ++ d :: r5.take m), d, ?_, hd⟩
  rw [ht, htk]
  simp

/-- A word character prepended to a matching position still matches. -/
theorem matchAt_cons_word {c : Char} (hc : isWordChar c = true) {y v : Str}
    (h : matchAt y = some v) : ∃ v2, matchAt (c :: y) = some v2 := by
  obtain ⟨r3, d, r5, m, hw, hcol, hdr, hd, hvc, -⟩ := matchAt_some_elim h
  refine ⟨_, matchAt_eq_some_of (s := c :: y) ?_ ?_ hdr hd hvc⟩
  · rw [List.takeWhile_cons_of_pos hc]
    rfl
  · rw [List.dropWhile_cons_of_pos hc]
    exact hcol

/-- Replacing the matched text by a sentinel lowers the colon count. -/
theorem countColon_replace_lt {p t rest : Str} {i : Nat} (hc : ':' ∈ t) :
    countColon (p ++ sentinel i ++ rest) < countColon (p ++ t ++ rest) := by
  simp only [countColon, List.count_append]
  have h1 : 0 < t.count ':' := List.count_pos_iff.mpr hc
  have h2 : (sentinel i).count ':' = 0 :=
    List.count_eq_zero.mpr (sentinel_no_colon i)
  omega

/-- Each found text occurs first at the found position, so the single
substitution of the loop body replaces exactly that occurrence. -/
theorem findMatch_replace {s p t rest : Str}
    (h : findMatch s = some (p, t, rest)) (i : Nat) :
    s = p ++ t ++ rest ∧
      replaceFirst t (sentinel i) s = p ++ sentinel i ++ rest := by
  obtain ⟨hdec, hmt, hleft⟩ := findMatch_some h
  refine ⟨hdec, ?_⟩
  rw [hdec]
  apply replaceFirst_at (matchAt_ne_nil hmt)
  intro j hj
  cases hx : t.isPrefixOf ((p ++ t ++ rest).drop j) with
  | false => rfl
  | true =>
    exfalso
    obtain ⟨z, hz⟩ := List.isPrefixOf_iff_prefix.mp hx
    have hm := matchAt_extend hmt z
    have hnone := hleft j hj
    rw [hdec] at hnone
    rw [hz] at hm
    rw [hm] at hnone
    cases hnone

/-- Forward invariant of the protection loop on a newline-free string: the
loop keeps the working string a weave of untouched fragments and
consecutively numbered sentinels over the original text, records strictly
increasing match positions, and keeps every fragment boundary valid. -/
theorem protectLoop_good :
    ∀ fuel s idx tab pos, countColon s < fuel →
      ∀ ps rem,
        s = weaveS 1 ps rem →
        idx = ps.length →
        tab = tableOf 1 ps →
        pos.length = ps.length →
        noNlB s = true →
        (∀ p ∈ ps, endOkB p.1 = true ∧
          ∃ c, p.2.getLast? = some c ∧ isDelimChar c = true) →
        (∀ j < (weaveS 1 ps []).length, matchAt (s.drop j) = none) →
        List.Pairwise (· < ·) (pos ++ [(weaveS 1 ps []).length]) →
        ∃ ps2 rem2,
          (protectLoop fuel s idx tab pos).query = weaveS 1 ps2 rem2 ∧
          (protectLoop fuel s idx tab pos).table = tableOf 1 ps2 ∧
          (protectLoop fuel s idx tab pos).positions.length = ps2.length ∧
          weaveT ps2 rem2 = weaveT ps rem ∧
          (∀ p ∈ ps2, endOkB p.1 = true ∧
            ∃ c, p.2.getLast? = some c ∧ isDelimChar c = true) ∧
          List.Pairwise (· < ·) (protectLoop fuel s idx tab pos).positions := by
  intro fuel
  induction fuel with
  | zero =>
    intro s idx tab pos hfuel
    omega
  | succ f ih =>
    intro s idx tab pos hfuel ps rem hs hidx htab hplen hnl hfrag hNM hpw
    unfold protectLoop
    rcases hfm : findMatch s with _ | ⟨⟨p, t, rest⟩⟩ <;> dsimp only
    · exact ⟨ps, rem, hs, htab, hplen, rfl, hfrag,
        List.Pairwise.sublist (List.sublist_append_left _ _) hpw⟩
    · obtain ⟨hdec, hmt, hleft⟩ := findMatch_some hfm
      have hDlen : (weaveS 1 ps []).length ≤ p.length := by
        by_contra hcon
        have h1 := hNM p.length (by omega)
        have h2 : s.drop p.length = t ++ rest := by
          rw [hdec, List.append_assoc, List.drop_left]
        rw [h2, hmt] at h1
        cases h1
      have hsw : weaveS 1 ps [] ++ rem = p ++ (t ++ rest) := by
        rw [← weaveS_split, ← hs, hdec, List.append_assoc]
      obtain ⟨p₂, hp2, hrem⟩ := append_eq_append_of_le hsw hDlen
      have hrepl := (findMatch_replace hfm (idx + 1)).2
      have hs' : replaceFirst t (sentinel (idx + 1)) s =
          weaveS 1 (ps ++ [(p₂, t)]) rest := by
        rw [hrepl, weaveS_append_pair, weaveS_split]
        rw [show (1 : Nat) + ps.length = idx + 1 from by omega]
        rw [hp2]
        simp
      have hlastt := matchAt_last_delim hmt
      have htne : t ≠ [] := matchAt_ne_nil hmt
      have hend2 : endOkB p₂ = true := by
        rcases hlp : p₂.getLast? with _ | lc
        · simp [endOkB, hlp]
        · have hp2ne : p₂ ≠ [] := by
            intro h0
            rw [h0] at hlp
            simp at hlp
          have hplast : p.getLast? = some lc := by
            rw [hp2, List.getLast?_append_of_ne_nil _ hp2ne]
            exact hlp
          simp only [endOkB, hlp]
          cases hword : isWordChar lc with
          | false => rfl
          | true =>
            exfalso
            have hpne : p ≠ [] := by
              intro h0
              rw [h0] at hplast
              simp at hplast
            have hlen1 : 1 ≤ p.length := by
              rcases p with _ | _
              · exact absurd rfl hpne
              · simp
            have hq : p.dropLast ++ [lc] = p :=
              List.dropLast_append_getLast? lc hplast
            have h9 : s = p.dropLast ++ (lc :: (t ++ rest)) := by
              rw [hdec, List.append_assoc, ← hq]
              simp
            have h10 : p.length - 1 = p.dropLast.length := by
              simp [List.length_dropLast]
            have hdrop1 : s.drop (p.length - 1) = lc :: (t ++ rest) := by
              rw [h9, h10, List.drop_left]
            obtain ⟨v2, hv2⟩ := matchAt_cons_word hword hmt
            have hnone := hleft (p.length - 1) (by omega)
            rw [hdrop1, hv2] at hnone
            cases hnone
      have hnlp : ∀ c ∈ p, c ≠ '\n' := by
        intro c hc
        apply noNl_mem hnl
        rw [hdec]
        simp [hc]
      have hnlt : ∀ c ∈ t, c ≠ '\n' := by
        intro c hc
        apply noNl_mem hnl
        rw [hdec]
        simp [hc]
      have hnlr : ∀ c ∈ rest, c ≠ '\n' := by
        intro c hc
        apply noNl_mem hnl
        rw [hdec]
        simp [hc]
      have hD2 : (weaveS 1 (ps ++ [(p₂, t)]) []).length =
          p.length + (sentinel (idx + 1)).length := by
        rw [weaveS_append_pair,
          show (1 : Nat) + ps.length = idx + 1 from by omega,
          weaveS_split, hp2]
        simp only [List.length_append, List.length_nil]
        omega
      have hNM2 : ∀ j < (weaveS 1 (ps ++ [(p₂, t)]) []).length,
          matchAt ((replaceFirst t (sentinel (idx + 1)) s).drop j) = none := by
        intro j hj
        rw [hD2] at hj
        rw [hrepl]
        rcases Nat.lt_or_ge j p.length with hjp | hjp
        · have hu : (p ++ sentinel (idx + 1) ++ rest).drop j =
              p.drop j ++ (sentinel (idx + 1) ++ rest) := by
            rw [List.append_assoc]
            exact List.drop_append_of_le_length (le_of_lt hjp)
          rw [hu]
          apply matchAt_none_transfer hlastt
          · intro c hc
            rcases List.mem_append.mp hc with hc1 | hc1
            · exact hnlp c (List.mem_of_mem_drop hc1)
            · rcases List.mem_append.mp hc1 with hc2 | hc2
              · exact hnlt c hc2
              · exact hnlr c hc2
          · have h1 := hleft j hjp
            rw [hdec, List.append_assoc,
              List.drop_append_of_le_length (le_of_lt hjp)] at h1
            exact h1
        · have hr : j - p.length < (sentinel (idx + 1)).length := by omega
          have hu : (p ++ sentinel (idx + 1) ++ rest).drop
              (p.length + (j - p.length)) =
              (sentinel (idx + 1)).drop (j - p.length) ++ rest := by
            rw [List.append_assoc, List.drop_append]
            exact List.drop_append_of_le_length (le_of_lt hr)
          rw [show j = p.length + (j - p.length) from by omega, hu]
          exact matchAt_sentinel_drop rest _ hr
      have hcc : countColon (replaceFirst t (sentinel (idx + 1)) s) <
          countColon s := by
        rw [hrepl]
        conv_rhs => rw [hdec]
        exact countColon_replace_lt (matchAt_colon hmt)
      have hnl' : noNlB (replaceFirst t (sentinel (idx + 1)) s) = true := by
        rw [hrepl]
        apply noNl_intro
        intro c hc
        rcases List.mem_append.mp hc with hc1 | hc1
        · rcases List.mem_append.mp hc1 with hc2 | hc2
          · exact hnlp c hc2
          · exact sentinel_noNl c hc2
        · exact hnlr c hc1
      have htab2 : tab ++ [(idx + 1, t)] = tableOf 1 (ps ++ [(p₂, t)]) := by
        rw [tableOf_append, ← htab]
        rw [show (1 : Nat) + ps.length = idx + 1 from by omega]
      have hfrag2 : ∀ q ∈ ps ++ [(p₂, t)], endOkB q.1 = true ∧
          ∃ c, q.2.getLast? = some c ∧ isDelimChar c = true := by
        intro q hq
        rcases List.mem_append.mp hq with hq1 | hq1
        · exact hfrag q hq1
        · simp only [List.mem_singleton] at hq1
          subst hq1
          refine ⟨hend2, ?_⟩
          obtain ⟨t₀, dl, htdl, hdl⟩ := hlastt
          exact ⟨dl, by rw [htdl]; exact List.getLast?_concat _, hdl⟩
      have hpw2 : List.Pairwise (· < ·)
          ((pos ++ [p.length]) ++
            [(weaveS 1 (ps ++ [(p₂, t)]) []).length]) := by
        rw [List.pairwise_append] at hpw
        obtain ⟨hpw1, -, hlt⟩ := hpw
        have hposlt : ∀ a ∈ pos, a < (weaveS 1 ps []).length := by
          intro a ha
          exact hlt a ha _ (by simp)
        have hSpos : 0 < (sentinel (idx + 1)).length := by
          simp [sentinel]
        rw [List.pairwise_append]
        refine ⟨?_, by simp, ?_⟩
        · rw [List.pairwise_append]
          refine ⟨hpw1, by simp, ?_⟩
          intro a ha b hb
          simp only [List.mem_singleton] at hb
          subst hb
          have := hposlt a ha
          omega
        · intro a ha b hb
          simp only [List.mem_singleton] at hb
          subst hb
          rw [hD2]
          rcases List.mem_append.mp ha with ha1 | ha1
          · have := hposlt a ha1
            omega
          · simp only [List.mem_singleton] at ha1
            subst ha1
            omega
      have hplen2 : (pos ++ [p.length]).length = (ps ++ [(p₂, t)]).length := by
        simp [hplen]
      have hrec := ih (replaceFirst t (sentinel (idx + 1)) s) (idx + 1)
        (tab ++ [(idx + 1, t)]) (pos ++ [p.length]) (by omega)
        (ps ++ [(p₂, t)]) rest hs' (by simp [hidx]) htab2 hplen2 hnl'
        hfrag2 hNM2 hpw2
      obtain ⟨ps2, rem2, hq1, hq2, hq3, hq4, hq5, hq6⟩ := hrec
      refine ⟨ps2, rem2, hq1, hq2, hq3, ?_, hq5, hq6⟩
      rw [hq4, weaveT_append_pair]
      rw [hrem] at hsw ⊢
      rw [← List.append_assoc]

/-- Every fragment/match pair of a weave is an infix of the reconstructed
text. -/
theorem weaveT_infix : ∀ (ps : List (Str × Str)) (rem : Str) (p : Str × Str),
    p ∈ ps → ∃ A B, weaveT ps rem = A ++ (p.1 ++ p.2) ++ B := by
  intro ps
  induction ps with
  | nil =>
    intro rem p hp
    cases hp
  | cons hd tl ih =>
    intro rem p hp
    rcases List.mem_cons.mp hp with h1 | h1
    · subst h1
      exact ⟨[], weaveT tl rem, by simp [weaveT]⟩
    · obtain ⟨A, B, hAB⟩ := ih rem p h1
      refine ⟨hd.1 ++ hd.2 ++ A, B, ?_⟩
      show hd.1 ++ hd.2 ++ weaveT tl rem = _
      rw [hAB]
      simp

/-- With no compound tags, the expansion loop returns its input unchanged
and reports no error: the first pass is the identity, so the second
iteration's fixed-point test stops the loop. -/
theorem expandLoop_no_tags (s : Str) :
    (expandLoop [] [] s 0).1 = s ∧ (expandLoop [] [] s 0).2.1 = false := by
  have h1 : expandLoop [] [] s 0 = expandLoopAux [] 20 [] s 0 := rfl
  rw [h1]
  by_cases h : s = ([] : Str)
  · unfold expandLoopAux
    rw [if_pos h]
    exact ⟨rfl, rfl⟩
  · have h2 : expandLoopAux [] 20 [] s 0 =
        expandLoopAux [] 19 s (expandPass [] s) 1 := by
      conv_lhs => rw [expandLoopAux]
      rw [if_neg h]
      rfl
    have hp : expandPass [] s = s := rfl
    rw [h2, hp]
    unfold expandLoopAux
    rw [if_pos rfl]
    exact ⟨rfl, rfl⟩

/-- The protection stage on a newline-free query: the result is a weave of
untouched fragments and consecutive sentinels over the original text, the
table lists the matched texts in order, the recorded positions are strictly
increasing, and every fragment boundary is a valid whole-word left context
with each matched text ending in its delimiter. -/
theorem protect_good (q : Str) (hn : noNlB q = true) :
    ∃ ps rem,
      (protect q).query = weaveS 1 ps rem ∧
      (protect q).table = tableOf 1 ps ∧
      (protect q).positions.length = ps.length ∧
      weaveT ps rem = q ∧
      (∀ p ∈ ps, endOkB p.1 = true ∧
        ∃ c, p.2.getLast? = some c ∧ isDelimChar c = true) ∧
      List.Pairwise (· < ·) (protect q).positions := by
  exact protectLoop_good (countColon q + 1) q 0 [] [] (by omega) [] q rfl rfl
    rfl rfl hn (by simp) (fun j hj => absurd hj (Nat.not_lt_zero j)) (by simp)

/-- C4 (amended: the query must contain no newline character): on a
newline-free query the Literal Protector records matches in strictly
left-to-right order, numbers them consecutively from 1, stores each full
matched text in the table (the query is exactly the fragments interleaved
with the matched texts, and the working string that same weave with each
matched text replaced by its sentinel), and each replacement is the single
leftmost occurrence, never a global replace.  For a query with a newline
the order claim fails (see the counterexample): `\s*` inside the pattern
crosses the newline while `.` in the value cannot, so a later match can be
found first. -/
theorem C4_amended (q : Str) (hn : noNlB q = true) :
    List.Pairwise (· < ·) (protect q).positions ∧
    (protect q).table.map Prod.fst =
      List.range' 1 (protect q).table.length ∧
    (∃ ps rem, q = weaveT ps rem ∧
      (protect q).query = weaveS 1 ps rem ∧
      (protect q).table = tableOf 1 ps ∧
      (protect q).positions.length = ps.length) ∧
    (∀ (s pre t rest : Str) (i : Nat), findMatch s = some (pre, t, rest) →
      s = pre ++ t ++ rest ∧
      replaceFirst t (sentinel i) s = pre ++ sentinel i ++ rest) := by
  obtain ⟨ps, rem, hq, ht, hl, hw, hf, hpw⟩ := protect_good q hn
  refine ⟨hpw, ?_, ⟨ps, rem, hw.symm, hq, ht, hl⟩, ?_⟩
  · rw [ht, tableOf_map_fst, tableOf_length]
  · intro s pre t rest i hfm
    exact findMatch_replace hfm i

/-- C4 counterexample: on `k:/x a\n:"v" /z` the protector records match
positions `[5, 0]` — the second match begins to the left of the first, so
processing is not left-to-right.  The pattern's `\s*` matches the newline
(so `a\n:"v"` is found at position 5), while the value's `.` cannot cross
it (so no match closes at position 0 until the substitution removes the
newline). -/
theorem C4_counterexample :
    (protect ("k:/x a\n:\"v\" /z".toList)).positions = [5, 0] ∧
    ¬ List.Pairwise (· < ·)
      (protect ("k:/x a\n:\"v\" /z".toList)).positions := by
  exact ⟨by decide, by decide⟩

/-- Witness for C4 at a concrete newline-free query with two literals. -/
theorem C4_witness :
    noNlB ("a:\"x\" b:/y/".toList) = true ∧
    List.Pairwise (· < ·) (protect ("a:\"x\" b:/y/".toList)).positions :=
  ⟨by decide, (C4_amended ("a:\"x\" b:/y/".toList) (by decide)).1⟩

/-- C3 (amended: the query must contain no newline character and no
substring of the shape `%%<digits>%`): under those conditions, with an
empty compound-tag set, protecting then restoring reproduces the query
exactly, for any number of protectable literals.  Both restrictions are
necessary (see the counterexample): a literal `%%1%%` already in the query
captures the restoration of the first protected literal, and a newline
makes a protected literal swallow an earlier-inserted sentinel, which is
then never restored. -/
theorem C3_amended (q : Str)
    (h : noNlB q = true ∧ hasShapeB q = false) :
    preprocessR [] q = (q, false) := by
  obtain ⟨hn, hsh⟩ := h
  obtain ⟨ps, rem, hq, ht, hl, hw, hf, hpw⟩ := protect_good q hn
  have hel := expandLoop_no_tags (protect q).query
  have hshp : ∀ p ∈ ps, hasShapeB (p.1 ++ p.2) = false ∧
      endOkB p.1 = true ∧
      ∃ c, p.2.getLast? = some c ∧ isDelimChar c = true := by
    intro p hp
    obtain ⟨hA, hB⟩ := hf p hp
    refine ⟨?_, hA, hB⟩
    cases hx : hasShapeB (p.1 ++ p.2) with
    | false => rfl
    | true =>
      exfalso
      obtain ⟨A, B, hAB⟩ := weaveT_infix ps rem p hp
      rw [hw] at hAB
      have hq2 : hasShapeB q = true := by
        rw [hAB]
        exact hasShapeB_append_left B (hasShapeB_append_right A hx)
      rw [hsh] at hq2
      cases hq2
  have hkey : preprocessR [] q =
      if (expandLoop [] [] (protect q).query 0).2.1 then
        ((expandLoop [] [] (protect q).query 0).1, true)
      else
        (restoreAll (protect q).table
          (expandLoop [] [] (protect q).query 0).1, false) := rfl
  rw [hkey, hel.2, if_neg (by simp), hel.1, hq, ht,
    restoreAll_weave ps 1 rem hshp, hw]

/-- C3 counterexample: the unrestricted round-trip claim is false.  On the
newline-free query `%%1%% a:"x"` restoration rewrites the pre-existing
literal `%%1%%` instead of the inserted sentinel, yielding `a:"x" %%1%%`.
On the shape-free query `k:/x a\n:"v" /z` the second protected literal
swallows the first sentinel, which restoration then never reaches,
yielding `k:/x %%1%% /z`.  Each input violates exactly one of the amended
hypotheses, so both are necessary. -/
theorem C3_counterexample :
    (noNlB ("%%1%% a:\"x\"".toList) = true ∧
      preprocessR [] ("%%1%% a:\"x\"".toList) =
        ("a:\"x\" %%1%%".toList, false)) ∧
    (hasShapeB ("k:/x a\n:\"v\" /z".toList) = false ∧
      preprocessR [] ("k:/x a\n:\"v\" /z".toList) =
        ("k:/x %%1%% /z".toList, false)) := by
  exact ⟨⟨by decide, by decide⟩, ⟨by decide, by decide⟩⟩

/-- Witness for C3 at a concrete query with two protectable literals. -/
theorem C3_witness :
    (noNlB ("a:\"x b\" c:/y/ d".toList) = true ∧
      hasShapeB ("a:\"x b\" c:/y/ d".toList) = false) ∧
    preprocessR [] ("a:\"x b\" c:/y/ d".toList) =
      ("a:\"x b\" c:/y/ d".toList, false) :=
  ⟨⟨by decide, by decide⟩,
    C3_amended ("a:\"x b\" c:/y/ d".toList) ⟨by decide, by decide⟩⟩

end ImageDatabase
